import Mathlib

/-!
Verification of the utorrentctl protocol session layer.

This file gives a shallow embedding of the parts of the library that the
specification talks about:

* the bencode codec (`bdecode` and `bencode` in `utorrent/__init__.py`),
* the duplicate-key JSON merge hook (`obj_hook` inside
  `Connection.do_action` in `utorrent/connection.py`),
* the list cache synchronizer (`Desktop._fetch_torrent_list` in
  `utorrent/uTorrent.py`),
* the transport retry loop (`Connection._make_request` in
  `utorrent/connection.py`) together with the class-level cookie jar.

Modelling conventions:

* Byte strings are `List Nat` (each element a byte value).
* Python exceptions are modelled by the inductive `PyExc`.  A function that
  can raise returns `Except PyExc`.  The library defines exactly one typed
  exception class, `uTorrentError`; every other constructor of `PyExc`
  stands for a raw built-in or stdlib exception.
* A Python `str` object is represented by its UTF-8 encoding together with
  the flag `true`; a `bytes`/`bytearray` object by its bytes and the flag
  `false`.  This is a bijective representation: CPython's strict UTF-8
  codec decodes a valid byte sequence to exactly one `str`, whose
  re-encoding is the original sequence.
-/

inductive PyExc where
  | stopIteration
  | valueError
  | typeError
  | keyError
  | indexError
  | attributeError
  | outOfFuel
  | uTorrentError (msg : String)
  | badStatusLine (id : Nat)
  | cannotSendRequest (id : Nat)
  | socketError (eno : Int) (strerror : String) (id : Nat)
deriving Repr, DecidableEq

/-! ### Python primitives used by the codec -/

/-- Characters stripped by `int(str)` (`Py_UNICODE_ISSPACE`, restricted to
code points below 256, which is all that can arise from `chr(byte)`). -/
def pyWs (c : Nat) : Bool :=
  c = 9 || c = 10 || c = 11 || c = 12 || c = 13 || c = 28 || c = 29 ||
  c = 30 || c = 31 || c = 32 || c = 133 || c = 160

/-- ASCII decimal digit, as accepted inside `int(str)`. -/
def isDig (c : Nat) : Bool := 48 ≤ c && c ≤ 57

/-- Python `str.isdigit` for a one-character string with code point below
256: the ASCII digits plus the superscripts ² (178), ³ (179), ¹ (185). -/
def pyStrIsdigit (c : Nat) : Bool :=
  (48 ≤ c && c ≤ 57) || c = 178 || c = 179 || c = 185

/-- Strip leading and trailing whitespace, as `int(str)` does. -/
def trimWs (cs : List Nat) : List Nat :=
  ((cs.dropWhile pyWs).reverse.dropWhile pyWs).reverse

/-- Digit run of `int(str)` after the first digit: single underscores are
allowed between digits (PEP 515), nothing else. `acc` is the value read
so far. -/
def pyDigitsRun (acc : Nat) : List Nat → Option Nat
  | [] => some acc
  | c :: rest =>
    if c = 95 then
      match rest with
      | [] => none
      | d :: rest2 =>
        if isDig d then pyDigitsRun (acc * 10 + (d - 48)) rest2 else none
    else if isDig c then pyDigitsRun (acc * 10 + (c - 48)) rest
    else none

/-- Unsigned part of `int(str)`: at least one digit, then `pyDigitsRun`. -/
def pyIntCore : List Nat → Option Nat
  | [] => none
  | c :: rest => if isDig c then pyDigitsRun (c - 48) rest else none

/-- Python `int(s)` on a string of code points, returning `none` where the
call raises `ValueError`: optional surrounding whitespace, optional sign,
digits with single interior underscores. -/
def pyInt (cs : List Nat) : Option Int :=
  match trimWs cs with
  | [] => none
  | c :: rest =>
    if c = 43 then (pyIntCore rest).map Int.ofNat
    else if c = 45 then (pyIntCore rest).map (fun n => -(Int.ofNat n))
    else (pyIntCore (c :: rest)).map Int.ofNat

/-- Decimal digits (as ASCII bytes, most significant first) of a natural
number, with explicit fuel so that the definition is structural. -/
def natDigitsF : Nat → Nat → List Nat
  | 0, _ => []
  | fuel + 1, n =>
    if n < 10 then [48 + n] else natDigitsF fuel (n / 10) ++ [48 + n % 10]

/-- Decimal representation of a natural number, as produced by Python
`str` for a nonnegative `int`. -/
def natDigits (n : Nat) : List Nat := natDigitsF (n + 1) n

/-- Python `str` of an `int`, as ASCII bytes (the encoding of
`"i... e".format(obj)` inside `bencode` uses exactly these bytes). -/
def intDigits (i : Int) : List Nat :=
  if i < 0 then 45 :: natDigits (-i).toNat else natDigits i.toNat

/-- CPython strict UTF-8 validity of a byte sequence: this is exactly the
set of inputs on which `bytes.decode("utf8")` succeeds (surrogates,
overlong forms and code points above U+10FFFF are rejected). -/
def utf8Valid : List Nat → Bool
  | [] => true
  | b :: rest =>
    if b ≤ 127 then utf8Valid rest
    else if 194 ≤ b && b ≤ 223 then
      match rest with
      | b1 :: r => (128 ≤ b1 && b1 ≤ 191) && utf8Valid r
      | [] => false
    else if b = 224 then
      match rest with
      | b1 :: b2 :: r =>
        (160 ≤ b1 && b1 ≤ 191) && (128 ≤ b2 && b2 ≤ 191) && utf8Valid r
      | _ => false
    else if 225 ≤ b && b ≤ 236 then
      match rest with
      | b1 :: b2 :: r =>
        (128 ≤ b1 && b1 ≤ 191) && (128 ≤ b2 && b2 ≤ 191) && utf8Valid r
      | _ => false
    else if b = 237 then
      match rest with
      | b1 :: b2 :: r =>
        (128 ≤ b1 && b1 ≤ 159) && (128 ≤ b2 && b2 ≤ 191) && utf8Valid r
      | _ => false
    else if 238 ≤ b && b ≤ 239 then
      match rest with
      | b1 :: b2 :: r =>
        (128 ≤ b1 && b1 ≤ 191) && (128 ≤ b2 && b2 ≤ 191) && utf8Valid r
      | _ => false
    else if b = 240 then
      match rest with
      | b1 :: b2 :: b3 :: r =>
        (144 ≤ b1 && b1 ≤ 191) && (128 ≤ b2 && b2 ≤ 191) &&
          (128 ≤ b3 && b3 ≤ 191) && utf8Valid r
      | _ => false
    else if 241 ≤ b && b ≤ 243 then
      match rest with
      | b1 :: b2 :: b3 :: r =>
        (128 ≤ b1 && b1 ≤ 191) && (128 ≤ b2 && b2 ≤ 191) &&
          (128 ≤ b3 && b3 ≤ 191) && utf8Valid r
      | _ => false
    else if b = 244 then
      match rest with
      | b1 :: b2 :: b3 :: r =>
        (128 ≤ b1 && b1 ≤ 143) && (128 ≤ b2 && b2 ≤ 191) &&
          (128 ≤ b3 && b3 ≤ 191) && utf8Valid r
      | _ => false
    else false

/-! ### The decoded value type

`bdecode` can return `None` (for an end marker, and stored as a dictionary
value when a terminator sits in value position), an `int`, a `str`, a
`bytearray`, a `list`, or a `dict`.  `BValue` covers all of these;
dictionaries are association lists in insertion order.  Python compares
`bytes` and `bytearray` by content, so one constructor with flag `false`
serves for both. -/

inductive BValue where
  | int : Int → BValue
  | str : List Nat → Bool → BValue
  | pynone : BValue
  | list : List BValue → BValue
  | dict : List (BValue × BValue) → BValue
deriving Repr

/-! ### Key comparison and sorting inside `bencode`

`bencode` iterates `sorted(obj.keys())`.  Python `sorted` uses the
comparison operator of the key objects: numeric for `int`-`int`,
lexicographic for `str`-`str` and `bytes`-`bytes` (for `str` the code
point order coincides with byte order of the UTF-8 payload we carry).
Every other combination raises `TypeError` in Python — and cannot occur
in an encodable dictionary, since `list`, `dict` and `bytearray` are
unhashable — so the comparator below totalises those cases by
constructor rank, with a flag tie-break making it antisymmetric. -/

def cmpBytes : List Nat → List Nat → Ordering
  | [], [] => .eq
  | [], _ :: _ => .lt
  | _ :: _, [] => .gt
  | a :: as, b :: bs => (compare a b).then (cmpBytes as bs)

def cmpBool : Bool → Bool → Ordering
  | false, false => .eq
  | false, true => .lt
  | true, false => .gt
  | true, true => .eq

def bvRank : BValue → Nat
  | .int _ => 0
  | .str _ _ => 1
  | .pynone => 2
  | .list _ => 3
  | .dict _ => 4

def cmpB (a b : BValue) : Ordering :=
  match a, b with
  | .int m, .int n => compare m n
  | .str s f, .str t g => (cmpBytes s t).then (cmpBool f g)
  | x, y => compare (bvRank x) (bvRank y)

def pairLt (x y : BValue × BValue) : Bool :=
  match cmpB x.1 y.1 with
  | .lt => true
  | _ => false

/-- Stable insertion into a key-sorted list of pairs (an element is placed
after all keys it does not strictly precede, matching the stability of
Python `sorted`). -/
def insertPair (x : BValue × BValue) : List (BValue × BValue) → List (BValue × BValue)
  | [] => [x]
  | y :: r => if pairLt x y then x :: y :: r else y :: insertPair x r

/-- `sorted(obj.keys())` combined with the lookup `obj[k]`: since a Python
dict has unique keys, iterating the sorted keys and looking each one up is
the same as stably sorting the (key, value) pairs by key. -/
def sortPairs : List (BValue × BValue) → List (BValue × BValue)
  | [] => []
  | x :: r => insertPair x (sortPairs r)

theorem sizeOf_insertPair (x : BValue × BValue) (l : List (BValue × BValue)) :
    sizeOf (insertPair x l) = 1 + sizeOf x + sizeOf l := by
  induction l with
  | nil => simp [insertPair]
  | cons y r ih =>
      by_cases h : pairLt x y = true
      · simp only [insertPair, h, if_pos]
        simp
      · simp only [insertPair, h, if_neg, Bool.false_eq_true, not_false_iff]
        simp [ih]
        omega

theorem sizeOf_sortPairs (l : List (BValue × BValue)) :
    sizeOf (sortPairs l) = sizeOf l := by
  induction l with
  | nil => simp [sortPairs]
  | cons x r ih => simp [sortPairs, sizeOf_insertPair, ih]

/-! ### `bencode` (utorrent/__init__.py lines 83-115)

Branches in source order: `int` emits `i<decimal>e`; `dict` emits `d`,
then each key and value with keys sorted, then `e`; `bytes`/`bytearray`
emit `<len>:<bytes>`; iterables emit `l<items>e`; everything else is
stringified and emitted like a byte string — for the values reachable
here that means `str` (whose `str()` is itself, encoded to its UTF-8
payload) and `None` (whose `str()` is `"None"`, bytes `78 111 110 101`).
-/

mutual
def bencode : BValue → List Nat
  | .int n => 105 :: intDigits n ++ [101]
  | .dict l => 100 :: bencodePairs (sortPairs l) ++ [101]
  | .str bs _ => natDigits bs.length ++ 58 :: bs
  | .list l => 108 :: bencodeList l ++ [101]
  | .pynone => natDigits 4 ++ 58 :: [78, 111, 110, 101]
termination_by v => sizeOf v
decreasing_by
  all_goals simp_wf
  all_goals first
    | omega
    | (rw [sizeOf_sortPairs]; omega)
def bencodeList : List BValue → List Nat
  | [] => []
  | v :: r => bencode v ++ bencodeList r
termination_by l => sizeOf l
decreasing_by all_goals simp_wf <;> omega
def bencodePairs : List (BValue × BValue) → List Nat
  | [] => []
  | (k, v) :: r => bencode k ++ bencode v ++ bencodePairs r
termination_by l => sizeOf l
decreasing_by all_goals simp_wf <;> omega
end

/-! ### `bdecode` (utorrent/__init__.py lines 32-80) -/

/-- The character loop of the integer branch: accumulate code points until
`e` (101); running out of input is `next()` raising `StopIteration`. -/
def readUntilE : List Nat → Except PyExc (List Nat × List Nat)
  | [] => .error .stopIteration
  | c :: r =>
    if c = 101 then .ok ([], r)
    else (readUntilE r).map fun p => (c :: p.1, p.2)

/-- The character loop of the string branch: accumulate until `:` (58). -/
def readUntilColon : List Nat → Except PyExc (List Nat × List Nat)
  | [] => .error .stopIteration
  | c :: r =>
    if c = 58 then .ok ([], r)
    else (readUntilColon r).map fun p => (c :: p.1, p.2)

/-- `for i in range(n): bout.append(next(data))`. -/
def readN : Nat → List Nat → Except PyExc (List Nat × List Nat)
  | 0, s => .ok ([], s)
  | _ + 1, [] => .error .stopIteration
  | n + 1, c :: r => (readN n r).map fun p => (c :: p.1, p.2)

/-- Python hashability of a decoded value: `int`, `str` and `None` are
hashable; `bytearray` (a decoded non-UTF-8 string), `list` and `dict` are
not, so using one as a dictionary key raises `TypeError`. -/
def bvHashable : BValue → Bool
  | .int _ => true
  | .str _ f => f
  | .pynone => true
  | .list _ => false
  | .dict _ => false

/-- Python `==` between hashable keys (the only comparisons a dict lookup
performs).  Values of different types are unequal; a `str` never equals a
`bytes`. -/
def bvKeyEq (a b : BValue) : Bool :=
  match a, b with
  | .int m, .int n => m == n
  | .str s f, .str t g => f == g && s == t
  | .pynone, .pynone => true
  | _, _ => false

/-- `out[k] = v` on an association list: Python keeps the position and the
original key object when an equal key exists, else appends. -/
def pyUpsertB : List (BValue × BValue) → BValue → BValue → List (BValue × BValue)
  | [], k, v => [(k, v)]
  | (k0, v0) :: r, k, v =>
    if bvKeyEq k0 k then (k0, v) :: r else (k0, v0) :: pyUpsertB r k v

/-- `out[k] = v` including the hashability check. -/
def pyDictSet (l : List (BValue × BValue)) (k v : BValue) :
    Except PyExc (List (BValue × BValue)) :=
  if bvHashable k then .ok (pyUpsertB l k v) else .error .typeError

mutual
/-- One `bdecode(data)` call on the remaining stream, with explicit fuel
(every recursive call consumes one unit; `bdecode` below supplies enough
for any input).  Result: the decoded value (`none` models Python
returning `None`) and the unconsumed rest of the stream.  Branches follow
the source: `e` returns the end marker; `i` reads digits until `e` and
applies `int`; `l` loops until an end marker; `d` loops key/value until an
end marker, raising on unhashable keys; a digit reads `<len>:<bytes>` and
decodes the bytes as UTF-8 when possible; any other byte leaves `out`
as `None`. -/
def bdecodeF : Nat → List Nat → Except PyExc (Option BValue × List Nat)
  | 0, _ => .error .outOfFuel
  | _ + 1, [] => .error .stopIteration
  | fuel + 1, t :: s =>
    if t = 101 then .ok (none, s)
    else if t = 105 then
      match readUntilE s with
      | .error e => .error e
      | .ok (ds, rest) =>
        match pyInt ds with
        | some n => .ok (some (.int n), rest)
        | none => .error .valueError
    else if t = 108 then
      match bdecodeItems fuel s with
      | .error e => .error e
      | .ok (vs, rest) => .ok (some (.list vs), rest)
    else if t = 100 then
      match bdecodePairs fuel [] s with
      | .error e => .error e
      | .ok (ps, rest) => .ok (some (.dict ps), rest)
    else if pyStrIsdigit t then
      match readUntilColon s with
      | .error e => .error e
      | .ok (ds, rest) =>
        match pyInt (t :: ds) with
        | some n =>
          match readN n.toNat rest with
          | .error e => .error e
          | .ok (bs, rest2) => .ok (some (.str bs (utf8Valid bs)), rest2)
        | none => .error .valueError
    else .ok (none, s)
def bdecodeItems : Nat → List Nat → Except PyExc (List BValue × List Nat)
  | 0, _ => .error .outOfFuel
  | fuel + 1, s =>
    match bdecodeF fuel s with
    | .error e => .error e
    | .ok (none, rest) => .ok ([], rest)
    | .ok (some v, rest) =>
      match bdecodeItems fuel rest with
      | .error e => .error e
      | .ok (vs, rest2) => .ok (v :: vs, rest2)
def bdecodePairs : Nat → List (BValue × BValue) → List Nat →
    Except PyExc (List (BValue × BValue) × List Nat)
  | 0, _, _ => .error .outOfFuel
  | fuel + 1, acc, s =>
    match bdecodeF fuel s with
    | .error e => .error e
    | .ok (none, rest) => .ok (acc, rest)
    | .ok (some k, rest) =>
      match bdecodeF fuel rest with
      | .error e => .error e
      | .ok (vOpt, rest2) =>
        match pyDictSet acc k (vOpt.getD .pynone) with
        | .error e => .error e
        | .ok acc2 => bdecodePairs fuel acc2 rest2
end

/-- `bdecode(data)`: decode one value from the byte stream and return it
(`none` is Python `None`).  The fuel `2 * length + 2` is enough for every
terminating run on the given input. -/
def bdecode (s : List Nat) : Except PyExc (Option BValue) :=
  (bdecodeF (2 * s.length + 2) s).map Prod.fst

/-! ### Canonical value trees

`canonical textKeys v` is the canonicity predicate of the specification:
no `None`, every string value carries its correct text flag (the flag a
decode would reproduce) and consists of bytes, and every dictionary has
string keys in strictly increasing key order (hence no duplicate keys; a
Python dict is unordered, the sorted association list is its canonical
representative).  With `textKeys = true` the keys must in addition be
text (UTF-8-decodable) strings. -/

def keyIsStr : Bool → BValue → Bool
  | tk, .str _ f => !tk || f
  | _, _ => false

def keysSortedStrict : List (BValue × BValue) → Bool
  | [] => true
  | [_] => true
  | x :: y :: r =>
    (match cmpB x.1 y.1 with
     | .lt => true
     | _ => false) && keysSortedStrict (y :: r)

mutual
def canonical : Bool → BValue → Bool
  | _, .int _ => true
  | _, .str bs f => bs.all (fun b => decide (b < 256)) && (f == utf8Valid bs)
  | _, .pynone => false
  | tk, .list l => canonicalList tk l
  | tk, .dict l => keysSortedStrict l && canonicalPairs tk l
def canonicalList : Bool → List BValue → Bool
  | _, [] => true
  | tk, v :: r => canonical tk v && canonicalList tk r
def canonicalPairs : Bool → List (BValue × BValue) → Bool
  | _, [] => true
  | tk, (k, v) :: r =>
    keyIsStr tk k && canonical tk k && canonical tk v && canonicalPairs tk r
end

/-! ### Lemmas about decimal digits and `int(str)` -/

theorem natDigitsF_stable :
    ∀ f n g, n < f → n < g → natDigitsF f n = natDigitsF g n := by
  intro f
  induction f with
  | zero => intro n g h1 _; omega
  | succ f ih =>
      intro n g h1 h2
      cases g with
      | zero => omega
      | succ g =>
          by_cases hn : n < 10
          · simp [natDigitsF, hn]
          · have hd : n / 10 < n := Nat.div_lt_self (by omega) (by omega)
            simp only [natDigitsF, hn, if_neg, not_false_iff]
            rw [ih (n / 10) g (by omega) (by omega)]

theorem natDigits_lt10 {n : Nat} (h : n < 10) : natDigits n = [48 + n] := by
  simp [natDigits, natDigitsF, h]

theorem natDigitsF_succ (f n : Nat) :
    natDigitsF (f + 1) n =
      if n < 10 then [48 + n] else natDigitsF f (n / 10) ++ [48 + n % 10] := rfl

theorem natDigits_ge10 {n : Nat} (h : 10 ≤ n) :
    natDigits n = natDigits (n / 10) ++ [48 + n % 10] := by
  have hd : n / 10 < n := Nat.div_lt_self (by omega) (by omega)
  unfold natDigits
  conv_lhs => rw [natDigitsF_succ]
  rw [if_neg (by omega : ¬ n < 10)]
  rw [natDigitsF_stable n (n / 10) (n / 10 + 1) (by omega) (by omega)]

theorem natDigits_mem :
    ∀ n, ∀ d ∈ natDigits n, 48 ≤ d ∧ d ≤ 57 := by
  intro n
  induction n using Nat.strong_induction_on with
  | _ n ih =>
      by_cases hn : n < 10
      · rw [natDigits_lt10 hn]
        intro d hd
        simp at hd
        omega
      · rw [natDigits_ge10 (by omega)]
        intro d hd
        rcases List.mem_append.mp hd with h | h
        · exact ih (n / 10) (Nat.div_lt_self (by omega) (by omega)) d h
        · simp at h
          have := Nat.mod_lt n (y := 10) (by omega)
          omega

theorem natDigits_ne_nil (n : Nat) : natDigits n ≠ [] := by
  by_cases hn : n < 10
  · rw [natDigits_lt10 hn]; simp
  · rw [natDigits_ge10 (by omega)]; simp

theorem natDigits_foldl :
    ∀ n acc, (natDigits n).foldl (fun a d => a * 10 + (d - 48)) acc =
      acc * 10 ^ (natDigits n).length + n := by
  intro n
  induction n using Nat.strong_induction_on with
  | _ n ih =>
      intro acc
      by_cases hn : n < 10
      · rw [natDigits_lt10 hn]
        simp only [List.foldl_cons, List.foldl_nil, List.length_cons, List.length_nil,
          Nat.zero_add, pow_one]
        omega
      · rw [natDigits_ge10 (by omega), List.foldl_append]
        rw [ih (n / 10) (Nat.div_lt_self (by omega) (by omega)) acc]
        simp only [List.foldl_cons, List.foldl_nil, List.length_append, List.length_cons,
          List.length_nil, Nat.zero_add, Nat.pow_succ]
        have h48 : 48 + n % 10 - 48 = n % 10 := by omega
        rw [h48]
        have h3 : (acc * 10 ^ (natDigits (n / 10)).length + n / 10) * 10 =
            acc * (10 ^ (natDigits (n / 10)).length * 10) + n / 10 * 10 := by ring
        rw [h3]
        generalize acc * (10 ^ (natDigits (n / 10)).length * 10) = Q
        omega

theorem isDig_natDigits {n d : Nat} (h : d ∈ natDigits n) : isDig d = true := by
  have := natDigits_mem n d h
  simp [isDig]
  omega

theorem pyDigitsRun_digits :
    ∀ ds acc, (∀ d ∈ ds, isDig d = true) →
      pyDigitsRun acc ds = some (ds.foldl (fun a d => a * 10 + (d - 48)) acc) := by
  intro ds
  induction ds with
  | nil => intro acc _; simp [pyDigitsRun]
  | cons c rest ih =>
      intro acc h
      have hc : isDig c = true := h c (by simp)
      have hc95 : ¬ c = 95 := by simp [isDig] at hc; omega
      unfold pyDigitsRun
      rw [if_neg hc95, if_pos hc]
      rw [ih _ (fun d hd => h d (by simp [hd]))]
      rfl

theorem pyIntCore_natDigits (n : Nat) : pyIntCore (natDigits n) = some n := by
  have hne := natDigits_ne_nil n
  match hds : natDigits n with
  | [] => exact absurd hds hne
  | c :: rest =>
      have hc : isDig c = true := isDig_natDigits (by rw [hds]; simp)
      simp only [pyIntCore, if_pos hc]
      rw [pyDigitsRun_digits rest (c - 48)
        (fun d hd => isDig_natDigits (by rw [hds]; simp [hd]))]
      have := natDigits_foldl n 0
      rw [hds] at this
      simp [List.foldl] at this
      rw [this]

theorem pyWs_digit_false {d : Nat} (h : isDig d = true) : pyWs d = false := by
  simp [isDig] at h
  simp [pyWs]
  omega

theorem dropWhile_noWs {cs : List Nat} (h : ∀ c ∈ cs, pyWs c = false) :
    cs.dropWhile pyWs = cs := by
  cases cs with
  | nil => simp
  | cons c r => simp [List.dropWhile, h c (by simp)]

theorem trimWs_noWs {cs : List Nat} (h : ∀ c ∈ cs, pyWs c = false) :
    trimWs cs = cs := by
  unfold trimWs
  rw [dropWhile_noWs h, dropWhile_noWs (by intro c hc; exact h c (by simpa using hc))]
  simp

theorem pyInt_natDigits (n : Nat) : pyInt (natDigits n) = some (Int.ofNat n) := by
  have htrim : trimWs (natDigits n) = natDigits n :=
    trimWs_noWs (fun c hc => pyWs_digit_false (isDig_natDigits hc))
  have hne := natDigits_ne_nil n
  unfold pyInt
  rw [htrim]
  match hds : natDigits n with
  | [] => exact absurd hds hne
  | c :: rest =>
      have hc : isDig c = true := isDig_natDigits (by rw [hds]; simp)
      have h43 : ¬ c = 43 := by simp [isDig] at hc; omega
      have h45 : ¬ c = 45 := by simp [isDig] at hc; omega
      simp only [if_neg h43, if_neg h45]
      rw [← hds, pyIntCore_natDigits n]
      simp

theorem pyInt_intDigits (i : Int) : pyInt (intDigits i) = some i := by
  by_cases hi : i < 0
  · simp only [intDigits, if_pos hi]
    have hmem : ∀ c ∈ (45 : Nat) :: natDigits (-i).toNat, pyWs c = false := by
      intro c hc
      rcases List.mem_cons.mp hc with h | h
      · simp [h, pyWs]
      · exact pyWs_digit_false (isDig_natDigits h)
    unfold pyInt
    rw [trimWs_noWs hmem]
    simp only [if_neg (by omega : ¬ (45 : Nat) = 43), if_pos rfl]
    rw [pyIntCore_natDigits]
    simp
    omega
  · simp only [intDigits, if_neg hi]
    rw [pyInt_natDigits]
    simp
    omega

/-! ### Lemmas about the character loops of `bdecode` -/

theorem readUntilE_app (pre rest : List Nat) (h : ¬ 101 ∈ pre) :
    readUntilE (pre ++ 101 :: rest) = .ok (pre, rest) := by
  induction pre with
  | nil => simp [readUntilE]
  | cons c r ih =>
      have hc : ¬ c = 101 := fun hc => h (by simp [hc])
      simp only [List.cons_append, readUntilE, if_neg hc, List.append_eq]
      rw [ih (fun hm => h (by simp [hm]))]
      rfl

theorem readUntilE_fail (s : List Nat) (h : ¬ 101 ∈ s) :
    readUntilE s = .error .stopIteration := by
  induction s with
  | nil => rfl
  | cons c r ih =>
      have hc : ¬ c = 101 := fun hc => h (by simp [hc])
      simp only [readUntilE, if_neg hc]
      rw [ih (fun hm => h (by simp [hm]))]
      rfl

theorem readUntilColon_app (pre rest : List Nat) (h : ¬ 58 ∈ pre) :
    readUntilColon (pre ++ 58 :: rest) = .ok (pre, rest) := by
  induction pre with
  | nil => simp [readUntilColon]
  | cons c r ih =>
      have hc : ¬ c = 58 := fun hc => h (by simp [hc])
      simp only [List.cons_append, readUntilColon, if_neg hc, List.append_eq]
      rw [ih (fun hm => h (by simp [hm]))]
      rfl

theorem readUntilColon_fail (s : List Nat) (h : ¬ 58 ∈ s) :
    readUntilColon s = .error .stopIteration := by
  induction s with
  | nil => rfl
  | cons c r ih =>
      have hc : ¬ c = 58 := fun hc => h (by simp [hc])
      simp only [readUntilColon, if_neg hc]
      rw [ih (fun hm => h (by simp [hm]))]
      rfl

theorem readN_app (bs rest : List Nat) :
    readN bs.length (bs ++ rest) = .ok (bs, rest) := by
  induction bs with
  | nil => rfl
  | cons c r ih =>
      simp only [List.length_cons, List.cons_append, readN, List.append_eq]
      rw [ih]
      rfl

theorem readN_fail : ∀ (n : Nat) (s : List Nat), s.length < n →
    readN n s = .error .stopIteration := by
  intro n
  induction n with
  | zero => intro s h; omega
  | succ m ih =>
      intro s h
      cases s with
      | nil => rfl
      | cons c r =>
          simp only [readN]
          rw [ih r (by simp at h; omega)]
          rfl

/-! ### Length facts about `bencode` -/

theorem intDigits_mem (i : Int) :
    ∀ d ∈ intDigits i, d = 45 ∨ (48 ≤ d ∧ d ≤ 57) := by
  intro d hd
  unfold intDigits at hd
  by_cases hi : i < 0
  · rw [if_pos hi] at hd
    rcases List.mem_cons.mp hd with h | h
    · exact Or.inl h
    · exact Or.inr (natDigits_mem _ d h)
  · rw [if_neg hi] at hd
    exact Or.inr (natDigits_mem _ d hd)

theorem bencode_len_ge2 (v : BValue) : 2 ≤ (bencode v).length := by
  cases v with
  | int n => simp [bencode]
  | str bs f =>
      have h := natDigits_ne_nil bs.length
      have : 1 ≤ (natDigits bs.length).length := by
        cases hnd : natDigits bs.length with
        | nil => exact absurd hnd h
        | cons c r => simp
      simp [bencode]
      omega
  | pynone =>
      have h := natDigits_ne_nil 4
      simp [bencode]
  | list l => simp [bencode]
  | dict l => simp [bencode]

/-! ### Fuel monotonicity of the decoder -/

theorem bdecode_mono : ∀ f : Nat,
    (∀ s g, f ≤ g → bdecodeF f s ≠ .error .outOfFuel →
      bdecodeF g s = bdecodeF f s) ∧
    (∀ s g, f ≤ g → bdecodeItems f s ≠ .error .outOfFuel →
      bdecodeItems g s = bdecodeItems f s) ∧
    (∀ acc s g, f ≤ g → bdecodePairs f acc s ≠ .error .outOfFuel →
      bdecodePairs g acc s = bdecodePairs f acc s) := by
  intro f
  induction f using Nat.strong_induction_on with
  | _ f ih =>
      cases f with
      | zero =>
          refine ⟨?_, ?_, ?_⟩
          · intro s g _ hne; exact absurd rfl hne
          · intro s g _ hne; exact absurd rfl hne
          · intro acc s g _ hne; exact absurd rfl hne
      | succ f =>
          have ihF := fun m (hm : m < f + 1) => (ih m hm).1
          have ihI := fun m (hm : m < f + 1) => (ih m hm).2.1
          have ihP := fun m (hm : m < f + 1) => (ih m hm).2.2
          refine ⟨?_, ?_, ?_⟩
          · intro s g hle hne
            cases g with
            | zero => omega
            | succ g =>
                have hfg : f ≤ g := by omega
                cases s with
                | nil => rfl
                | cons t s =>
                    by_cases h101 : t = 101
                    · simp only [bdecodeF, if_pos h101]
                    · by_cases h105 : t = 105
                      · simp only [bdecodeF, if_neg h101, if_pos h105]
                      · by_cases h108 : t = 108
                        · simp only [bdecodeF, if_neg h101, if_neg h105, if_pos h108]
                          simp only [bdecodeF, if_neg h101, if_neg h105,
                            if_pos h108] at hne
                          rcases hI : bdecodeItems f s with e | p
                          · rw [hI] at hne
                            have he : e ≠ .outOfFuel := by
                              intro hcon
                              rw [hcon] at hne
                              exact hne rfl
                            rw [ihI f (by omega) s g hfg (by rw [hI]; simp [he]), hI]
                          · rw [ihI f (by omega) s g hfg (by rw [hI]; simp), hI]
                        · by_cases h100 : t = 100
                          · simp only [bdecodeF, if_neg h101, if_neg h105, if_neg h108,
                              if_pos h100]
                            simp only [bdecodeF, if_neg h101, if_neg h105, if_neg h108,
                              if_pos h100] at hne
                            rcases hP : bdecodePairs f [] s with e | p
                            · rw [hP] at hne
                              have he : e ≠ .outOfFuel := by
                                intro hcon
                                rw [hcon] at hne
                                exact hne rfl
                              rw [ihP f (by omega) [] s g hfg (by rw [hP]; simp [he]), hP]
                            · rw [ihP f (by omega) [] s g hfg (by rw [hP]; simp), hP]
                          · simp only [bdecodeF, if_neg h101, if_neg h105, if_neg h108,
                              if_neg h100]
          · intro s g hle hne
            cases g with
            | zero => omega
            | succ g =>
                have hfg : f ≤ g := by omega
                simp only [bdecodeItems]
                simp only [bdecodeItems] at hne
                rcases hF : bdecodeF f s with e | ⟨vo, rest⟩
                · rw [hF] at hne
                  have he : e ≠ .outOfFuel := by
                    intro hcon; rw [hcon] at hne; exact hne rfl
                  rw [ihF f (by omega) s g hfg (by rw [hF]; simp [he]), hF]
                · rw [ihF f (by omega) s g hfg (by rw [hF]; simp), hF]
                  cases vo with
                  | none => rfl
                  | some v =>
                      dsimp only
                      rw [hF] at hne
                      dsimp only at hne
                      rcases hI : bdecodeItems f rest with e | p
                      · rw [hI] at hne
                        have he : e ≠ .outOfFuel := by
                          intro hcon; rw [hcon] at hne; exact hne rfl
                        rw [ihI f (by omega) rest g hfg (by rw [hI]; simp [he]), hI]
                      · rw [ihI f (by omega) rest g hfg (by rw [hI]; simp), hI]
          · intro acc s g hle hne
            cases g with
            | zero => omega
            | succ g =>
                have hfg : f ≤ g := by omega
                simp only [bdecodePairs]
                simp only [bdecodePairs] at hne
                rcases hF : bdecodeF f s with e | ⟨ko, rest⟩
                · rw [hF] at hne
                  have he : e ≠ .outOfFuel := by
                    intro hcon; rw [hcon] at hne; exact hne rfl
                  rw [ihF f (by omega) s g hfg (by rw [hF]; simp [he]), hF]
                · rw [ihF f (by omega) s g hfg (by rw [hF]; simp), hF]
                  cases ko with
                  | none => rfl
                  | some k =>
                      dsimp only
                      rw [hF] at hne
                      dsimp only at hne
                      rcases hF2 : bdecodeF f rest with e | ⟨vo, rest2⟩
                      · rw [hF2] at hne
                        have he : e ≠ .outOfFuel := by
                          intro hcon; rw [hcon] at hne; exact hne rfl
                        rw [ihF f (by omega) rest g hfg (by rw [hF2]; simp [he]), hF2]
                      · rw [ihF f (by omega) rest g hfg (by rw [hF2]; simp), hF2]
                        dsimp only
                        rw [hF2] at hne
                        dsimp only at hne
                        rcases hS : pyDictSet acc k (vo.getD .pynone) with e | acc2
                        · rfl
                        · rw [hS] at hne
                          dsimp only at hne
                          dsimp only
                          exact ihP f (by omega) acc2 rest2 g hfg hne

/-! ### Key order and sortedness lemmas -/

theorem ordering_then_eq (p : Ordering) : Ordering.eq.then p = p := rfl

theorem ordering_then_lt (p : Ordering) : Ordering.lt.then p = .lt := rfl

theorem ordering_then_gt (p : Ordering) : Ordering.gt.then p = .gt := rfl

theorem cmpBytes_refl (s : List Nat) : cmpBytes s s = .eq := by
  induction s with
  | nil => rfl
  | cons a as ih =>
      simp only [cmpBytes]
      rw [Nat.compare_eq_eq.mpr rfl, ordering_then_eq, ih]

theorem cmpBytes_eq_iff : ∀ s t : List Nat, cmpBytes s t = .eq ↔ s = t := by
  intro s
  induction s with
  | nil =>
      intro t
      cases t with
      | nil => simp [cmpBytes]
      | cons b bs => simp [cmpBytes]
  | cons a as ih =>
      intro t
      cases t with
      | nil => simp [cmpBytes]
      | cons b bs =>
          constructor
          · intro h
            simp only [cmpBytes] at h
            rcases hab : compare a b with hl | he | hg
            · rw [hab, ordering_then_lt] at h
              exact absurd h (by simp)
            · have hab2 : a = b := Nat.compare_eq_eq.mp hab
              rw [hab, ordering_then_eq] at h
              have := (ih bs).mp h
              rw [hab2, this]
            · rw [hab, ordering_then_gt] at h
              exact absurd h (by simp)
          · intro h
            rw [h]
            exact cmpBytes_refl (b :: bs)

theorem cmpBytes_lt_trans :
    ∀ s t u : List Nat, cmpBytes s t = .lt → cmpBytes t u = .lt →
      cmpBytes s u = .lt := by
  intro s
  induction s with
  | nil =>
      intro t u h1 h2
      cases t with
      | nil => exact h2
      | cons b bs =>
          cases u with
          | nil => simp [cmpBytes] at h2
          | cons c cs => rfl
  | cons a as ih =>
      intro t u h1 h2
      cases t with
      | nil => simp [cmpBytes] at h1
      | cons b bs =>
          cases u with
          | nil => simp [cmpBytes] at h2
          | cons c cs =>
              simp only [cmpBytes] at h1 h2 ⊢
              rcases hab : compare a b with h | h | h <;> rw [hab] at h1
              · have hab2 : a < b := Nat.compare_eq_lt.mp hab
                rcases hbc : compare b c with h' | h' | h' <;> rw [hbc] at h2
                · have : a < c := lt_trans hab2 (Nat.compare_eq_lt.mp hbc)
                  rw [Nat.compare_eq_lt.mpr this, ordering_then_lt]
                · have : a < c := Nat.compare_eq_eq.mp hbc ▸ hab2
                  rw [Nat.compare_eq_lt.mpr this, ordering_then_lt]
                · rw [ordering_then_gt] at h2
                  exact absurd h2 (by simp)
              · have hab2 : a = b := Nat.compare_eq_eq.mp hab
                rw [ordering_then_eq] at h1
                rcases hbc : compare b c with h' | h' | h' <;> rw [hbc] at h2
                · rw [hab2, hbc, ordering_then_lt]
                · rw [ordering_then_eq] at h2
                  rw [hab2, hbc, ordering_then_eq]
                  exact ih bs cs h1 h2
                · rw [ordering_then_gt] at h2
                  exact absurd h2 (by simp)
              · rw [ordering_then_gt] at h1
                exact absurd h1 (by simp)

theorem ordMatch_lt_iff (o : Ordering) :
    (match o with | .lt => true | _ => false) = true ↔ o = .lt := by
  cases o <;> simp

theorem cmpBool_lt_iff (a b : Bool) :
    cmpBool a b = .lt ↔ a = false ∧ b = true := by
  cases a <;> cases b <;> simp [cmpBool]

theorem keysSortedStrict_cons {x y : BValue × BValue} {r : List (BValue × BValue)}
    (h : keysSortedStrict (x :: y :: r) = true) :
    cmpB x.1 y.1 = .lt ∧ keysSortedStrict (y :: r) = true := by
  simp only [keysSortedStrict, Bool.and_eq_true] at h
  exact ⟨(ordMatch_lt_iff _).mp h.1, h.2⟩

theorem keysSortedStrict_tail (x : BValue × BValue) (r : List (BValue × BValue))
    (h : keysSortedStrict (x :: r) = true) : keysSortedStrict r = true := by
  cases r with
  | nil => rfl
  | cons y rr => exact (keysSortedStrict_cons h).2

theorem sortPairs_sorted_id : ∀ l : List (BValue × BValue),
    keysSortedStrict l = true → sortPairs l = l := by
  intro l
  induction l with
  | nil => intro _; rfl
  | cons x r ih =>
      intro h
      have hr := keysSortedStrict_tail x r h
      simp only [sortPairs]
      rw [ih hr]
      cases r with
      | nil => rfl
      | cons y rr =>
          have hxy := (keysSortedStrict_cons h).1
          simp [insertPair, pairLt, hxy]

theorem cmpB_str_lt_trans {s1 s2 s3 : List Nat} {f1 f2 f3 : Bool}
    (h1 : cmpB (.str s1 f1) (.str s2 f2) = .lt)
    (h2 : cmpB (.str s2 f2) (.str s3 f3) = .lt) :
    cmpB (.str s1 f1) (.str s3 f3) = .lt := by
  simp only [cmpB] at h1 h2 ⊢
  rcases h12 : cmpBytes s1 s2 with h | h | h <;> rw [h12] at h1
  · rcases h23 : cmpBytes s2 s3 with h' | h' | h' <;> rw [h23] at h2
    · rw [cmpBytes_lt_trans s1 s2 s3 h12 h23, ordering_then_lt]
    · rw [(cmpBytes_eq_iff s2 s3).mp h23] at h12
      rw [h12, ordering_then_lt]
    · rw [ordering_then_gt] at h2
      exact absurd h2 (by simp)
  · rw [ordering_then_eq] at h1
    have hs12 := (cmpBytes_eq_iff s1 s2).mp h12
    rcases h23 : cmpBytes s2 s3 with h' | h' | h' <;> rw [h23] at h2
    · rw [hs12, h23, ordering_then_lt]
    · rw [ordering_then_eq] at h2
      obtain ⟨hf1, hf2⟩ := (cmpBool_lt_iff _ _).mp h1
      obtain ⟨hf2b, _⟩ := (cmpBool_lt_iff _ _).mp h2
      rw [hf2] at hf2b
      exact absurd hf2b (by simp)
    · rw [ordering_then_gt] at h2
      exact absurd h2 (by simp)
  · rw [ordering_then_gt] at h1
    exact absurd h1 (by simp)

theorem bvKeyEq_false_of_str_lt {s1 s2 : List Nat} {f1 f2 : Bool}
    (h : cmpB (.str s1 f1) (.str s2 f2) = .lt) :
    bvKeyEq (.str s1 f1) (.str s2 f2) = false := by
  simp only [cmpB] at h
  simp only [bvKeyEq]
  rcases h12 : cmpBytes s1 s2 with h' | h' | h' <;> rw [h12] at h
  · have hne : s1 ≠ s2 := fun hcon => by
      rw [hcon, cmpBytes_refl] at h12
      exact absurd h12 (by simp)
    simp [hne]
  · rw [ordering_then_eq] at h
    obtain ⟨hf1, hf2⟩ := (cmpBool_lt_iff _ _).mp h
    simp [hf1, hf2]
  · rw [ordering_then_gt] at h
    exact absurd h (by simp)

theorem keys_pairwise_lt : ∀ l : List (BValue × BValue),
    (∀ p ∈ l, ∃ bs f, p.1 = BValue.str bs f) → keysSortedStrict l = true →
    List.Pairwise (fun a b : BValue × BValue => cmpB a.1 b.1 = .lt) l := by
  intro l
  induction l with
  | nil => exact fun _ _ => List.Pairwise.nil
  | cons x r ih =>
      intro hstr hsort
      have hr := keysSortedStrict_tail x r hsort
      have hpr := ih (fun p hp => hstr p (by simp [hp])) hr
      refine List.Pairwise.cons ?_ hpr
      intro z hz
      cases r with
      | nil => simp at hz
      | cons y rr =>
          have hxy := (keysSortedStrict_cons hsort).1
          rcases List.mem_cons.mp hz with h | h
          · rw [h]
            exact hxy
          · have hyz : cmpB y.1 z.1 = .lt := (List.pairwise_cons.mp hpr).1 z h
            obtain ⟨bs1, f1, hx⟩ := hstr x (by simp)
            obtain ⟨bs2, f2, hy⟩ := hstr y (by simp)
            obtain ⟨bs3, f3, hzs⟩ := hstr z (by simp [h])
            rw [hx, hy] at hxy
            rw [hy, hzs] at hyz
            rw [hx, hzs]
            exact cmpB_str_lt_trans hxy hyz

theorem pyUpsertB_fresh : ∀ (acc : List (BValue × BValue)) (k v : BValue),
    (∀ q ∈ acc, bvKeyEq q.1 k = false) → pyUpsertB acc k v = acc ++ [(k, v)] := by
  intro acc
  induction acc with
  | nil => intro k v _; rfl
  | cons q r ih =>
      intro k v h
      obtain ⟨k0, v0⟩ := q
      have h0 : bvKeyEq k0 k = false := h (k0, v0) (by simp)
      simp only [pyUpsertB, h0]
      rw [ih k v (fun q hq => h q (by simp [hq]))]
      simp

/-! ### Destructuring canonicity -/

theorem canonical_str {bs : List Nat} {f : Bool} {tk : Bool}
    (h : canonical tk (.str bs f) = true) :
    (∀ b ∈ bs, b < 256) ∧ f = utf8Valid bs := by
  simp only [canonical, Bool.and_eq_true, List.all_eq_true, beq_iff_eq] at h
  exact ⟨fun b hb => by simpa using h.1 b hb, h.2⟩

theorem canonical_list_elts {tk : Bool} {l : List BValue}
    (h : canonical tk (.list l) = true) : canonicalList tk l = true := by
  simpa [canonical] using h

theorem canonicalList_cons {tk : Bool} {v : BValue} {r : List BValue}
    (h : canonicalList tk (v :: r) = true) :
    canonical tk v = true ∧ canonicalList tk r = true := by
  simpa [canonicalList, Bool.and_eq_true] using h

theorem canonical_dict_parts {tk : Bool} {l : List (BValue × BValue)}
    (h : canonical tk (.dict l) = true) :
    keysSortedStrict l = true ∧ canonicalPairs tk l = true := by
  simpa [canonical, Bool.and_eq_true] using h

theorem canonicalPairs_cons {tk : Bool} {k v : BValue} {r : List (BValue × BValue)}
    (h : canonicalPairs tk ((k, v) :: r) = true) :
    keyIsStr tk k = true ∧ canonical tk k = true ∧ canonical tk v = true ∧
      canonicalPairs tk r = true := by
  have h2 : ((keyIsStr tk k = true ∧ canonical tk k = true) ∧
      canonical tk v = true) ∧ canonicalPairs tk r = true := by
    simpa [canonicalPairs, Bool.and_eq_true] using h
  exact ⟨h2.1.1.1, h2.1.1.2, h2.1.2, h2.2⟩

theorem keyIsStr_true {k : BValue} (h : keyIsStr true k = true) :
    ∃ bs, k = BValue.str bs true := by
  cases k with
  | str bs f =>
      simp [keyIsStr] at h
      exact ⟨bs, by rw [h]⟩
  | int n => simp [keyIsStr] at h
  | pynone => simp [keyIsStr] at h
  | list l => simp [keyIsStr] at h
  | dict l => simp [keyIsStr] at h

theorem canonicalPairs_keyStr {tk : Bool} : ∀ l : List (BValue × BValue),
    canonicalPairs tk l = true → ∀ p ∈ l, ∃ bs f, p.1 = BValue.str bs f := by
  intro l
  induction l with
  | nil => intro _ p hp; simp at hp
  | cons q r ih =>
      intro h p hp
      obtain ⟨k, v⟩ := q
      obtain ⟨hk, _, _, hr⟩ := canonicalPairs_cons h
      rcases List.mem_cons.mp hp with hh | hh
      · rw [hh]
        cases k with
        | str bs f => exact ⟨bs, f, rfl⟩
        | int n => simp [keyIsStr] at hk
        | pynone => simp [keyIsStr] at hk
        | list l2 => simp [keyIsStr] at hk
        | dict l2 => simp [keyIsStr] at hk
      · exact ih hr p hh

/-! ### One-step unfolding lemmas for the decoder -/

theorem bdecodeF_end_step (f : Nat) (s : List Nat) :
    bdecodeF (f + 1) (101 :: s) = .ok (none, s) := rfl

theorem bdecodeF_int_step (f : Nat) (s : List Nat) :
    bdecodeF (f + 1) (105 :: s) =
      (match readUntilE s with
       | .error e => .error e
       | .ok (ds, rest) =>
         match pyInt ds with
         | some n => .ok (some (.int n), rest)
         | none => .error .valueError) := rfl

theorem bdecodeF_list_step (f : Nat) (s : List Nat) :
    bdecodeF (f + 1) (108 :: s) =
      (match bdecodeItems f s with
       | .error e => .error e
       | .ok (vs, rest) => .ok (some (.list vs), rest)) := rfl

theorem bdecodeF_dict_step (f : Nat) (s : List Nat) :
    bdecodeF (f + 1) (100 :: s) =
      (match bdecodePairs f [] s with
       | .error e => .error e
       | .ok (ps, rest) => .ok (some (.dict ps), rest)) := rfl

theorem bdecodeF_digit_step (f t : Nat) (s : List Nat)
    (h1 : ¬ t = 101) (h2 : ¬ t = 105) (h3 : ¬ t = 108) (h4 : ¬ t = 100)
    (h5 : pyStrIsdigit t = true) :
    bdecodeF (f + 1) (t :: s) =
      (match readUntilColon s with
       | .error e => .error e
       | .ok (ds, rest) =>
         match pyInt (t :: ds) with
         | some n =>
           match readN n.toNat rest with
           | .error e => .error e
           | .ok (bs, rest2) => .ok (some (.str bs (utf8Valid bs)), rest2)
         | none => .error .valueError) := by
  simp only [bdecodeF, if_neg h1, if_neg h2, if_neg h3, if_neg h4, if_pos h5]

theorem bdecodeF_other_step (f t : Nat) (s : List Nat)
    (h1 : ¬ t = 101) (h2 : ¬ t = 105) (h3 : ¬ t = 108) (h4 : ¬ t = 100)
    (h5 : pyStrIsdigit t = false) :
    bdecodeF (f + 1) (t :: s) = .ok (none, s) := by
  simp only [bdecodeF, if_neg h1, if_neg h2, if_neg h3, if_neg h4, h5]
  simp

theorem bdecodeItems_step (f : Nat) (s : List Nat) :
    bdecodeItems (f + 1) s =
      (match bdecodeF f s with
       | .error e => .error e
       | .ok (none, rest) => .ok ([], rest)
       | .ok (some v, rest) =>
         match bdecodeItems f rest with
         | .error e => .error e
         | .ok (vs, rest2) => .ok (v :: vs, rest2)) := rfl

theorem bdecodePairs_step (f : Nat) (acc : List (BValue × BValue)) (s : List Nat) :
    bdecodePairs (f + 1) acc s =
      (match bdecodeF f s with
       | .error e => .error e
       | .ok (none, rest) => .ok (acc, rest)
       | .ok (some k, rest) =>
         match bdecodeF f rest with
         | .error e => .error e
         | .ok (vOpt, rest2) =>
           match pyDictSet acc k (vOpt.getD .pynone) with
           | .error e => .error e
           | .ok acc2 => bdecodePairs f acc2 rest2) := rfl

/-! ### Decoding an encoding succeeds -/

theorem bdecodeF_bencode : ∀ fuel : Nat,
    (∀ v r, canonical true v = true → 2 * (bencode v).length ≤ fuel →
      bdecodeF fuel (bencode v ++ r) = .ok (some v, r)) ∧
    (∀ vs r, canonicalList true vs = true →
      2 * (bencodeList vs).length + 2 ≤ fuel →
      bdecodeItems fuel (bencodeList vs ++ 101 :: r) = .ok (vs, r)) ∧
    (∀ ps acc r, canonicalPairs true ps = true →
      List.Pairwise (fun a b : BValue × BValue => bvKeyEq a.1 b.1 = false) ps →
      (∀ p ∈ ps, ∀ q ∈ acc, bvKeyEq q.1 p.1 = false) →
      2 * (bencodePairs ps).length + 2 ≤ fuel →
      bdecodePairs fuel acc (bencodePairs ps ++ 101 :: r) = .ok (acc ++ ps, r)) := by
  intro fuel
  induction fuel using Nat.strong_induction_on with
  | _ fuel ih =>
      have ihF := fun m (hm : m < fuel) => (ih m hm).1
      have ihI := fun m (hm : m < fuel) => (ih m hm).2.1
      have ihP := fun m (hm : m < fuel) => (ih m hm).2.2
      refine ⟨?_, ?_, ?_⟩
      · intro v r hc hb
        have hlen2 := bencode_len_ge2 v
        cases fuel with
        | zero => omega
        | succ f =>
            cases v with
            | int n =>
                have hshape : bencode (.int n) ++ r =
                    105 :: (intDigits n ++ 101 :: r) := by
                  simp [bencode]
                rw [hshape, bdecodeF_int_step]
                have hmem : ¬ 101 ∈ intDigits n := by
                  intro hm
                  rcases intDigits_mem n 101 hm with h | h <;> omega
                rw [readUntilE_app (intDigits n) r hmem]
                dsimp only
                rw [pyInt_intDigits n]
            | str bs fl =>
                obtain ⟨_, hfl⟩ := canonical_str hc
                rcases hnd : natDigits bs.length with _ | ⟨c, ds⟩
                · exact absurd hnd (natDigits_ne_nil bs.length)
                · have hcdig : 48 ≤ c ∧ c ≤ 57 :=
                    natDigits_mem bs.length c (by rw [hnd]; simp)
                  have hdsdig : ∀ d ∈ ds, 48 ≤ d ∧ d ≤ 57 := fun d hd =>
                    natDigits_mem bs.length d (by rw [hnd]; simp [hd])
                  have hshape : bencode (.str bs fl) ++ r =
                      c :: (ds ++ 58 :: (bs ++ r)) := by
                    simp [bencode, hnd]
                  rw [hshape]
                  rw [bdecodeF_digit_step f c (ds ++ 58 :: (bs ++ r))
                    (by omega) (by omega) (by omega) (by omega)
                    (by simp [pyStrIsdigit]; omega)]
                  have hmem : ¬ 58 ∈ ds := by
                    intro hm
                    have := hdsdig 58 hm
                    omega
                  rw [readUntilColon_app ds (bs ++ r) hmem]
                  dsimp only
                  have hint : pyInt (c :: ds) = some (Int.ofNat bs.length) := by
                    rw [← hnd]
                    exact pyInt_natDigits bs.length
                  rw [hint]
                  dsimp only
                  have htn : (Int.ofNat bs.length).toNat = bs.length := rfl
                  rw [htn, readN_app bs r]
                  dsimp only
                  rw [← hfl]
            | pynone => simp [canonical] at hc
            | list l =>
                have hcl := canonical_list_elts hc
                have hshape : bencode (.list l) ++ r =
                    108 :: (bencodeList l ++ 101 :: r) := by
                  simp [bencode]
                have hblen : (bencode (.list l)).length =
                    (bencodeList l).length + 2 := by
                  simp [bencode]
                rw [hshape, bdecodeF_list_step]
                rw [ihI f (by omega) l r hcl (by omega)]
            | dict l =>
                obtain ⟨hsorted, hpairs⟩ := canonical_dict_parts hc
                have hstr := canonicalPairs_keyStr l hpairs
                have hplt := keys_pairwise_lt l hstr hsorted
                have hpkeq : List.Pairwise
                    (fun a b : BValue × BValue => bvKeyEq a.1 b.1 = false) l := by
                  refine hplt.imp_of_mem ?_
                  intro a b ha hb2 hr
                  obtain ⟨bs1, f1, h1⟩ := hstr a ha
                  obtain ⟨bs2, f2, h2⟩ := hstr b hb2
                  rw [h1, h2] at hr ⊢
                  exact bvKeyEq_false_of_str_lt hr
                have hshape : bencode (.dict l) ++ r =
                    100 :: (bencodePairs l ++ 101 :: r) := by
                  simp [bencode, sortPairs_sorted_id l hsorted]
                have hblen : (bencode (.dict l)).length =
                    (bencodePairs l).length + 2 := by
                  simp [bencode, sortPairs_sorted_id l hsorted]
                rw [hshape, bdecodeF_dict_step]
                rw [ihP f (by omega) l [] r hpairs hpkeq
                  (by intro p _ q hq; simp at hq) (by omega)]
                simp
      · intro vs r hcl hb
        cases fuel with
        | zero => omega
        | succ f =>
            cases vs with
            | nil =>
                cases f with
                | zero => simp [bencodeList] at hb
                | succ f2 =>
                    show bdecodeItems (f2 + 1 + 1) (bencodeList [] ++ 101 :: r) =
                      .ok ([], r)
                    rw [bdecodeItems_step]
                    have : bencodeList [] ++ 101 :: r = 101 :: r := by
                      simp [bencodeList]
                    rw [this, bdecodeF_end_step]
            | cons v vr =>
                obtain ⟨hcv, hcvr⟩ := canonicalList_cons hcl
                have hlenv := bencode_len_ge2 v
                have hshape : bencodeList (v :: vr) ++ 101 :: r =
                    bencode v ++ (bencodeList vr ++ 101 :: r) := by
                  simp [bencodeList]
                have hblen : (bencodeList (v :: vr)).length =
                    (bencode v).length + (bencodeList vr).length := by
                  simp [bencodeList]
                rw [hshape, bdecodeItems_step]
                rw [ihF f (by omega) v (bencodeList vr ++ 101 :: r) hcv (by omega)]
                dsimp only
                rw [ihI f (by omega) vr r hcvr (by omega)]
      · intro ps acc r hcp hpair hfresh hb
        cases fuel with
        | zero => omega
        | succ f =>
            cases ps with
            | nil =>
                cases f with
                | zero => simp [bencodePairs] at hb
                | succ f2 =>
                    show bdecodePairs (f2 + 1 + 1) acc
                      (bencodePairs [] ++ 101 :: r) = .ok (acc ++ [], r)
                    rw [bdecodePairs_step]
                    have : bencodePairs [] ++ 101 :: r = 101 :: r := by
                      simp [bencodePairs]
                    rw [this, bdecodeF_end_step]
                    simp
            | cons q pr =>
                obtain ⟨k, v⟩ := q
                obtain ⟨hkstr, hck, hcv, hcpr⟩ := canonicalPairs_cons hcp
                obtain ⟨bsk, hkeq⟩ := keyIsStr_true hkstr
                have hlenk := bencode_len_ge2 k
                have hlenv := bencode_len_ge2 v
                have hshape : bencodePairs ((k, v) :: pr) ++ 101 :: r =
                    bencode k ++ (bencode v ++ (bencodePairs pr ++ 101 :: r)) := by
                  simp [bencodePairs]
                have hblen : (bencodePairs ((k, v) :: pr)).length =
                    (bencode k).length + (bencode v).length +
                      (bencodePairs pr).length := by
                  simp [bencodePairs]
                  omega
                rw [hshape, bdecodePairs_step]
                rw [ihF f (by omega) k (bencode v ++ (bencodePairs pr ++ 101 :: r))
                  hck (by omega)]
                dsimp only
                rw [ihF f (by omega) v (bencodePairs pr ++ 101 :: r) hcv (by omega)]
                dsimp only
                have hhash : bvHashable k = true := by rw [hkeq]; rfl
                have hfreshk : ∀ q2 ∈ acc, bvKeyEq q2.1 k = false := by
                  intro q2 hq2
                  exact hfresh (k, v) (by simp) q2 hq2
                have hset : pyDictSet acc k ((some v).getD .pynone) =
                    .ok (acc ++ [(k, v)]) := by
                  simp only [Option.getD, pyDictSet, if_pos hhash]
                  rw [pyUpsertB_fresh acc k v hfreshk]
                rw [hset]
                dsimp only
                have hpairTail := (List.pairwise_cons.mp hpair).2
                have hpairHead := (List.pairwise_cons.mp hpair).1
                have hfresh2 : ∀ p ∈ pr, ∀ q2 ∈ acc ++ [(k, v)],
                    bvKeyEq q2.1 p.1 = false := by
                  intro p hp q2 hq2
                  rcases List.mem_append.mp hq2 with h | h
                  · exact hfresh p (by simp [hp]) q2 h
                  · have hq2e : q2 = (k, v) := by simpa using h
                    rw [hq2e]
                    exact hpairHead p hp
                rw [ihP f (by omega) pr (acc ++ [(k, v)]) r hcpr hpairTail hfresh2
                  (by omega)]
                simp

/-! ### Truncated streams -/

/-- `p` is a proper prefix of `s`: the stream `p` ends in the middle of
the value(s) encoded by `s`. -/
def ProperPre (p s : List Nat) : Prop := ∃ t, t ≠ [] ∧ p ++ t = s

theorem properPre_parts {p s : List Nat} (h : ProperPre p s) :
    p = s.take p.length ∧ p.length < s.length := by
  obtain ⟨t, ht, he⟩ := h
  constructor
  · rw [← he, List.take_left]
  · rw [← he]
    simp
    exact List.length_pos.mpr ht

theorem properPre_split {p a b : List Nat} (h : ProperPre p (a ++ b))
    (hb : b ≠ []) :
    ProperPre p a ∨ ∃ q, p = a ++ q ∧ ProperPre q b := by
  obtain ⟨t, ht, he⟩ := h
  rcases List.append_eq_append_iff.mp he with ⟨a2, ha2, ht2⟩ | ⟨c2, hc2, ht2⟩
  · cases a2 with
    | nil =>
        right
        refine ⟨[], by simpa using ha2.symm, t, ht, ?_⟩
        simpa using ht2.symm.symm
    | cons x xs =>
        left
        exact ⟨x :: xs, by simp, ha2.symm⟩
  · right
    exact ⟨c2, hc2, t, ht, ht2.symm⟩

theorem properPre_nil_of_single {p : List Nat} {x : Nat}
    (h : ProperPre p [x]) : p = [] := by
  obtain ⟨hp, hl⟩ := properPre_parts h
  have hlen : p.length < 1 := by simpa using hl
  cases p with
  | nil => rfl
  | cons a q => simp at hlen

theorem properPre_cons {p s : List Nat} {x : Nat}
    (h : ProperPre p (x :: s)) :
    p = [] ∨ ∃ q, p = x :: q ∧ ProperPre q s := by
  obtain ⟨t, ht, he⟩ := h
  cases p with
  | nil => exact Or.inl rfl
  | cons y q =>
      right
      have hy : y = x := by
        have := congrArg (fun l => l.head?) he
        simpa using this
      simp only [List.cons_append, List.cons.injEq] at he
      exact ⟨q, by rw [hy], t, ht, he.2⟩

theorem prefix_short_subset {q ds rest : List Nat}
    (hq : q = (ds ++ rest).take q.length) (hlen : q.length ≤ ds.length) :
    ∀ x ∈ q, x ∈ ds := by
  rw [List.take_append_of_le_length hlen] at hq
  intro x hx
  rw [hq] at hx
  exact List.take_subset _ _ hx

/-- A stream that ends strictly inside a canonically encoded value makes
`bdecode` run out of input: the final `next(data)` raises
`StopIteration`. -/
theorem bdecodeF_fail : ∀ fuel : Nat,
    (∀ v p, canonical true v = true → ProperPre p (bencode v) →
      2 * p.length + 1 ≤ fuel → bdecodeF fuel p = .error .stopIteration) ∧
    (∀ vs p, canonicalList true vs = true →
      ProperPre p (bencodeList vs ++ [101]) →
      2 * p.length + 2 ≤ fuel → bdecodeItems fuel p = .error .stopIteration) ∧
    (∀ ps acc p, canonicalPairs true ps = true →
      List.Pairwise (fun a b : BValue × BValue => bvKeyEq a.1 b.1 = false) ps →
      (∀ pr ∈ ps, ∀ q ∈ acc, bvKeyEq q.1 pr.1 = false) →
      ProperPre p (bencodePairs ps ++ [101]) →
      2 * p.length + 2 ≤ fuel →
      bdecodePairs fuel acc p = .error .stopIteration) := by
  intro fuel
  induction fuel using Nat.strong_induction_on with
  | _ fuel ih =>
      have ihI := fun m (hm : m < fuel) => (ih m hm).2.1
      have ihP := fun m (hm : m < fuel) => (ih m hm).2.2
      refine ⟨?_, ?_, ?_⟩
      · intro v p hc hpre hb
        cases fuel with
        | zero => omega
        | succ f =>
            cases v with
            | int n =>
                rcases properPre_cons (by simpa [bencode] using hpre) with hnil | ⟨q, hpq, hq⟩
                · rw [hnil]; rfl
                · obtain ⟨hqt, hql⟩ := properPre_parts hq
                  have hlq : q.length ≤ (intDigits n).length := by
                    simp at hql; omega
                  have hsub := prefix_short_subset hqt hlq
                  have hmem : ¬ 101 ∈ q := fun hm => by
                    rcases intDigits_mem n 101 (hsub 101 hm) with h | h <;> omega
                  rw [hpq, bdecodeF_int_step, readUntilE_fail q hmem]
            | str bs fl =>
                rcases hnd : natDigits bs.length with _ | ⟨c, ds⟩
                · exact absurd hnd (natDigits_ne_nil bs.length)
                · have hcdig : 48 ≤ c ∧ c ≤ 57 :=
                    natDigits_mem bs.length c (by rw [hnd]; simp)
                  have hdsdig : ∀ d ∈ ds, 48 ≤ d ∧ d ≤ 57 := fun d hd =>
                    natDigits_mem bs.length d (by rw [hnd]; simp [hd])
                  have hshape : bencode (.str bs fl) = c :: (ds ++ 58 :: bs) := by
                    simp [bencode, hnd]
                  rcases properPre_cons (by rw [hshape] at hpre; exact hpre) with
                    hnil | ⟨q, hpq, hq⟩
                  · rw [hnil]; rfl
                  · obtain ⟨hqt, hql⟩ := properPre_parts hq
                    rw [hpq, bdecodeF_digit_step f c q
                      (by omega) (by omega) (by omega) (by omega)
                      (by simp [pyStrIsdigit]; omega)]
                    by_cases hlq : q.length ≤ ds.length
                    · have hsub := prefix_short_subset
                        (by simpa using hqt) hlq
                      have hmem : ¬ 58 ∈ q := fun hm => by
                        have := hdsdig 58 (hsub 58 hm)
                        omega
                      rw [readUntilColon_fail q hmem]
                    · have hm1 : ds.length < q.length := by omega
                      rw [List.take_append_eq_append_take] at hqt
                      rw [List.take_all_of_le (by omega)] at hqt
                      rcases hmm : q.length - ds.length with _ | m
                      · omega
                      · rw [hmm] at hqt
                        have htake : (58 :: bs).take (m + 1) = 58 :: bs.take m := by
                          simp
                        rw [htake] at hqt
                        have hplen : (bs.take m).length < bs.length := by
                          simp at hql
                          simp [List.length_take]
                          omega
                        rw [hqt]
                        have hmem : ¬ 58 ∈ ds := fun hm => by
                          have := hdsdig 58 hm
                          omega
                        rw [readUntilColon_app ds (bs.take m) hmem]
                        dsimp only
                        have hint : pyInt (c :: ds) = some (Int.ofNat bs.length) := by
                          rw [← hnd]
                          exact pyInt_natDigits bs.length
                        rw [hint]
                        dsimp only
                        have htn : (Int.ofNat bs.length).toNat = bs.length := rfl
                        rw [htn, readN_fail bs.length (bs.take m) hplen]
            | pynone => simp [canonical] at hc
            | list l =>
                have hcl := canonical_list_elts hc
                have hshape : bencode (.list l) =
                    108 :: (bencodeList l ++ [101]) := by
                  simp [bencode]
                rcases properPre_cons (by rw [hshape] at hpre; exact hpre) with
                  hnil | ⟨q, hpq, hq⟩
                · rw [hnil]; rfl
                · rw [hpq, bdecodeF_list_step]
                  have hqlen : q.length + 1 = p.length := by rw [hpq]; simp
                  rw [ihI f (by omega) l q hcl hq (by omega)]
            | dict l =>
                obtain ⟨hsorted, hpairs⟩ := canonical_dict_parts hc
                have hstr := canonicalPairs_keyStr l hpairs
                have hplt := keys_pairwise_lt l hstr hsorted
                have hpkeq : List.Pairwise
                    (fun a b : BValue × BValue => bvKeyEq a.1 b.1 = false) l := by
                  refine hplt.imp_of_mem ?_
                  intro a b ha hb2 hr
                  obtain ⟨bs1, f1, h1⟩ := hstr a ha
                  obtain ⟨bs2, f2, h2⟩ := hstr b hb2
                  rw [h1, h2] at hr ⊢
                  exact bvKeyEq_false_of_str_lt hr
                have hshape : bencode (.dict l) =
                    100 :: (bencodePairs l ++ [101]) := by
                  simp [bencode, sortPairs_sorted_id l hsorted]
                rcases properPre_cons (by rw [hshape] at hpre; exact hpre) with
                  hnil | ⟨q, hpq, hq⟩
                · rw [hnil]; rfl
                · rw [hpq, bdecodeF_dict_step]
                  have hqlen : q.length + 1 = p.length := by rw [hpq]; simp
                  rw [ihP f (by omega) l [] q hpairs hpkeq
                    (by intro pr _ q2 hq2; simp at hq2) hq (by omega)]
      · intro vs p hcl hpre hb
        cases fuel with
        | zero => omega
        | succ f =>
            cases vs with
            | nil =>
                have hp : p = [] := properPre_nil_of_single
                  (by simpa [bencodeList] using hpre)
                rw [hp]
                cases f with
                | zero => omega
                | succ f2 =>
                    rw [bdecodeItems_step]
                    rfl
            | cons v vr =>
                obtain ⟨hcv, hcvr⟩ := canonicalList_cons hcl
                have hlenv := bencode_len_ge2 v
                have hshape : bencodeList (v :: vr) ++ [101] =
                    bencode v ++ (bencodeList vr ++ [101]) := by
                  simp [bencodeList]
                rw [hshape] at hpre
                rw [bdecodeItems_step]
                rcases properPre_split hpre (by simp) with hfail | ⟨q, hpq, hq⟩
                · rw [(ih f (by omega)).1 v p hcv hfail (by omega)]
                · have hplen : p.length = (bencode v).length + q.length := by
                    rw [hpq]; simp
                  rw [hpq]
                  rw [(bdecodeF_bencode f).1 v q hcv (by omega)]
                  dsimp only
                  rw [ihI f (by omega) vr q hcvr hq (by omega)]
      · intro ps acc p hcp hpair hfresh hpre hb
        cases fuel with
        | zero => omega
        | succ f =>
            cases ps with
            | nil =>
                have hp : p = [] := properPre_nil_of_single
                  (by simpa [bencodePairs] using hpre)
                rw [hp]
                cases f with
                | zero => omega
                | succ f2 =>
                    rw [bdecodePairs_step]
                    rfl
            | cons q0 pr =>
                obtain ⟨k, v⟩ := q0
                obtain ⟨hkstr, hck, hcv, hcpr⟩ := canonicalPairs_cons hcp
                obtain ⟨bsk, hkeq⟩ := keyIsStr_true hkstr
                have hlenk := bencode_len_ge2 k
                have hlenv := bencode_len_ge2 v
                have hshape : bencodePairs ((k, v) :: pr) ++ [101] =
                    bencode k ++ (bencode v ++ (bencodePairs pr ++ [101])) := by
                  simp [bencodePairs]
                rw [hshape] at hpre
                rw [bdecodePairs_step]
                rcases properPre_split hpre (by simp) with hfail | ⟨q, hpq, hq⟩
                · rw [(ih f (by omega)).1 k p hck hfail (by omega)]
                · have hplen : p.length = (bencode k).length + q.length := by
                    rw [hpq]; simp
                  rw [hpq]
                  rw [(bdecodeF_bencode f).1 k q hck (by omega)]
                  dsimp only
                  rcases properPre_split hq (by simp) with hfail2 | ⟨q2, hq2eq, hq2⟩
                  · rw [(ih f (by omega)).1 v q hcv hfail2 (by omega)]
                  · have hqlen : q.length = (bencode v).length + q2.length := by
                      rw [hq2eq]; simp
                    rw [hq2eq]
                    rw [(bdecodeF_bencode f).1 v q2 hcv (by omega)]
                    dsimp only
                    have hhash : bvHashable k = true := by rw [hkeq]; rfl
                    have hfreshk : ∀ q3 ∈ acc, bvKeyEq q3.1 k = false := by
                      intro q3 hq3
                      exact hfresh (k, v) (by simp) q3 hq3
                    have hset : pyDictSet acc k ((some v).getD .pynone) =
                        .ok (acc ++ [(k, v)]) := by
                      simp only [Option.getD, pyDictSet, if_pos hhash]
                      rw [pyUpsertB_fresh acc k v hfreshk]
                    rw [hset]
                    dsimp only
                    have hpairTail := (List.pairwise_cons.mp hpair).2
                    have hpairHead := (List.pairwise_cons.mp hpair).1
                    have hfresh2 : ∀ pr2 ∈ pr, ∀ q3 ∈ acc ++ [(k, v)],
                        bvKeyEq q3.1 pr2.1 = false := by
                      intro pr2 hp2 q3 hq3
                      rcases List.mem_append.mp hq3 with h | h
                      · exact hfresh pr2 (by simp [hp2]) q3 h
                      · have hq3e : q3 = (k, v) := by simpa using h
                        rw [hq3e]
                        exact hpairHead pr2 hp2
                    rw [ihP f (by omega) pr (acc ++ [(k, v)]) q2 hcpr hpairTail
                      hfresh2 hq2 (by omega)]

/-! ### Sorting is insertion-order independent on distinct string keys -/

theorem ordering_then_swap (o p : Ordering) : (o.then p).swap = o.swap.then p.swap := by
  cases o <;> rfl

theorem nat_compare_flip (a b : Nat) : compare b a = (compare a b).swap := by
  rcases h : compare a b with h1 | h1 | h1
  · have := Nat.compare_eq_lt.mp h
    rw [Nat.compare_eq_gt.mpr this]
    rfl
  · have := Nat.compare_eq_eq.mp h
    rw [Nat.compare_eq_eq.mpr this.symm]
    rfl
  · have := Nat.compare_eq_gt.mp h
    rw [Nat.compare_eq_lt.mpr this]
    rfl

theorem cmpBytes_flip : ∀ s t : List Nat, cmpBytes t s = (cmpBytes s t).swap := by
  intro s
  induction s with
  | nil =>
      intro t
      cases t with
      | nil => rfl
      | cons b bs => rfl
  | cons a as ih =>
      intro t
      cases t with
      | nil => rfl
      | cons b bs =>
          simp only [cmpBytes]
          rw [ordering_then_swap, nat_compare_flip, ih bs]

theorem cmpBool_flip (a b : Bool) : cmpBool b a = (cmpBool a b).swap := by
  cases a <;> cases b <;> rfl

theorem cmpB_str_flip (s1 s2 : List Nat) (f1 f2 : Bool) :
    cmpB (.str s2 f2) (.str s1 f1) = (cmpB (.str s1 f1) (.str s2 f2)).swap := by
  simp only [cmpB]
  rw [ordering_then_swap, cmpBytes_flip s1 s2, cmpBool_flip f1 f2]

theorem cmpBool_eq_iff (a b : Bool) : cmpBool a b = .eq ↔ a = b := by
  cases a <;> cases b <;> simp [cmpBool]

theorem cmpB_str_eq_keys {s1 s2 : List Nat} {f1 f2 : Bool}
    (h : cmpB (.str s1 f1) (.str s2 f2) = .eq) : s1 = s2 ∧ f1 = f2 := by
  simp only [cmpB] at h
  rcases h12 : cmpBytes s1 s2 with h' | h' | h' <;> rw [h12] at h
  · rw [ordering_then_lt] at h
    exact absurd h (by simp)
  · rw [ordering_then_eq] at h
    exact ⟨(cmpBytes_eq_iff s1 s2).mp h12, (cmpBool_eq_iff f1 f2).mp h⟩
  · rw [ordering_then_gt] at h
    exact absurd h (by simp)

theorem cmpB_str_total {s1 s2 : List Nat} {f1 f2 : Bool}
    (hlt : ¬ cmpB (.str s1 f1) (.str s2 f2) = .lt)
    (hne : bvKeyEq (.str s1 f1) (.str s2 f2) = false) :
    cmpB (.str s2 f2) (.str s1 f1) = .lt := by
  rcases h : cmpB (.str s1 f1) (.str s2 f2) with h' | h' | h'
  · exact absurd h hlt
  · obtain ⟨hs, hf⟩ := cmpB_str_eq_keys h
    rw [hs, hf] at hne
    simp [bvKeyEq] at hne
  · rw [cmpB_str_flip, h]
    rfl

theorem cmpB_str_asymm {s1 s2 : List Nat} {f1 f2 : Bool}
    (h1 : cmpB (.str s1 f1) (.str s2 f2) = .lt)
    (h2 : cmpB (.str s2 f2) (.str s1 f1) = .lt) : False := by
  rw [cmpB_str_flip, h1] at h2
  simp [Ordering.swap] at h2

theorem beq_comm_of_lawful {α : Type} [BEq α] [LawfulBEq α] (a b : α) :
    (a == b) = (b == a) := by
  by_cases h : a = b
  · rw [h]
  · rw [beq_eq_false_iff_ne.mpr h, beq_eq_false_iff_ne.mpr (Ne.symm h)]

theorem bvKeyEq_comm (a b : BValue) : bvKeyEq a b = bvKeyEq b a := by
  cases a <;> cases b <;> simp only [bvKeyEq]
  all_goals first
    | rfl
    | exact beq_comm_of_lawful _ _
    | (congr 1 <;> exact beq_comm_of_lawful _ _)

theorem insertPair_mem (x y : BValue × BValue) :
    ∀ l : List (BValue × BValue), y ∈ insertPair x l ↔ y = x ∨ y ∈ l := by
  intro l
  induction l with
  | nil => simp [insertPair]
  | cons z r ih =>
      by_cases h : pairLt x z = true
      · simp [insertPair, h]
      · simp only [insertPair, if_neg h, List.mem_cons, ih]
        tauto

theorem pairLt_iff (x y : BValue × BValue) :
    pairLt x y = true ↔ cmpB x.1 y.1 = .lt := by
  simp only [pairLt]
  exact ordMatch_lt_iff _

theorem keysSortedStrict_build {a b : BValue × BValue} {r : List (BValue × BValue)}
    (h1 : cmpB a.1 b.1 = .lt) (h2 : keysSortedStrict (b :: r) = true) :
    keysSortedStrict (a :: b :: r) = true := by
  simp [keysSortedStrict, h1, h2]

theorem insertPair_perm (x : BValue × BValue) :
    ∀ l : List (BValue × BValue), (insertPair x l).Perm (x :: l) := by
  intro l
  induction l with
  | nil => exact List.Perm.refl _
  | cons y r ih =>
      by_cases h : pairLt x y = true
      · simp only [insertPair, if_pos h]
        exact List.Perm.refl _
      · simp only [insertPair, if_neg h]
        exact (ih.cons y).trans (List.Perm.swap x y r)

theorem sortPairs_perm : ∀ l : List (BValue × BValue), (sortPairs l).Perm l := by
  intro l
  induction l with
  | nil => exact List.Perm.refl _
  | cons x r ih =>
      simp only [sortPairs]
      exact (insertPair_perm x (sortPairs r)).trans (ih.cons x)

theorem insertPair_strict (x : BValue × BValue) :
    ∀ l : List (BValue × BValue),
    (∀ p ∈ x :: l, ∃ bs f, p.1 = BValue.str bs f) →
    (∀ p ∈ l, bvKeyEq x.1 p.1 = false) →
    keysSortedStrict l = true →
    keysSortedStrict (insertPair x l) = true := by
  intro l
  induction l with
  | nil => intro _ _ _; rfl
  | cons y r ih =>
      intro hstr hdist hsort
      obtain ⟨bsx, fx, hx⟩ := hstr x (by simp)
      obtain ⟨bsy, fy, hy⟩ := hstr y (by simp)
      by_cases hxy : pairLt x y = true
      · simp only [insertPair, if_pos hxy]
        exact keysSortedStrict_build ((pairLt_iff x y).mp hxy) hsort
      · simp only [insertPair, if_neg hxy]
        have hyx : cmpB y.1 x.1 = .lt := by
          rw [hy, hx]
          refine cmpB_str_total ?_ ?_
          · rw [← hx, ← hy]
            exact fun hcon => hxy ((pairLt_iff x y).mpr hcon)
          · rw [← hx, ← hy]
            exact hdist y (by simp)
        cases r with
        | nil =>
            simp only [insertPair]
            exact keysSortedStrict_build hyx rfl
        | cons z rr =>
            have hyz := (keysSortedStrict_cons hsort).1
            have hzrr := (keysSortedStrict_cons hsort).2
            have hins := ih
              (by
                intro p hp
                rcases List.mem_cons.mp hp with h | h
                · rw [h]; exact ⟨bsx, fx, hx⟩
                · exact hstr p (by simp [h]))
              (fun p hp => hdist p (by simp [hp]))
              hzrr
            by_cases hxz : pairLt x z = true
            · simp only [insertPair, if_pos hxz]
              exact keysSortedStrict_build hyx
                (keysSortedStrict_build ((pairLt_iff x z).mp hxz) hzrr)
            · simp only [insertPair, if_neg hxz]
              have hhead : insertPair x (z :: rr) = z :: insertPair x rr := by
                simp only [insertPair, if_neg hxz]
              rw [hhead] at hins
              exact keysSortedStrict_build hyz hins

theorem sortPairs_strict : ∀ l : List (BValue × BValue),
    (∀ p ∈ l, ∃ bs f, p.1 = BValue.str bs f) →
    List.Pairwise (fun a b : BValue × BValue => bvKeyEq a.1 b.1 = false) l →
    keysSortedStrict (sortPairs l) = true := by
  intro l
  induction l with
  | nil => intro _ _; rfl
  | cons x r ih =>
      intro hstr hpair
      simp only [sortPairs]
      have hmem : ∀ p, p ∈ sortPairs r → p ∈ r :=
        fun p hp => (sortPairs_perm r).mem_iff.mp hp
      refine insertPair_strict x (sortPairs r) ?_ ?_ ?_
      · intro p hp
        rcases List.mem_cons.mp hp with h | h
        · rw [h]; exact hstr x (by simp)
        · exact hstr p (by simp [hmem p h])
      · intro p hp
        exact (List.pairwise_cons.mp hpair).1 p (hmem p hp)
      · exact ih (fun p hp => hstr p (by simp [hp]))
          (List.pairwise_cons.mp hpair).2

theorem strict_sorted_perm_eq : ∀ s1 s2 : List (BValue × BValue),
    (∀ p ∈ s1, ∃ bs f, p.1 = BValue.str bs f) →
    keysSortedStrict s1 = true → keysSortedStrict s2 = true →
    s1.Perm s2 → s1 = s2 := by
  intro s1
  induction s1 with
  | nil =>
      intro s2 _ _ _ hperm
      exact (hperm.symm.eq_nil).symm
  | cons x t1 ih =>
      intro s2 hstr1 hsort1 hsort2 hperm
      cases s2 with
      | nil => exact absurd hperm.eq_nil (by simp)
      | cons y t2 =>
          have hstr2 : ∀ p ∈ y :: t2, ∃ bs f, p.1 = BValue.str bs f :=
            fun p hp => hstr1 p (hperm.symm.subset hp)
          have hplt1 := keys_pairwise_lt (x :: t1) hstr1 hsort1
          have hplt2 := keys_pairwise_lt (y :: t2) hstr2 hsort2
          by_cases hxy : x = y
          · rw [hxy]
            rw [hxy] at hperm hstr1 hsort1
            have htperm := hperm.cons_inv
            rw [ih t2 (fun p hp => hstr1 p (by simp [hp]))
              (keysSortedStrict_tail y t1 hsort1)
              (keysSortedStrict_tail y t2 hsort2) htperm]
          · have hxmem : x ∈ y :: t2 := hperm.subset (by simp)
            have hymem : y ∈ x :: t1 := hperm.symm.subset (by simp)
            have hxt2 : x ∈ t2 := by
              rcases List.mem_cons.mp hxmem with h | h
              · exact absurd h hxy
              · exact h
            have hyt1 : y ∈ t1 := by
              rcases List.mem_cons.mp hymem with h | h
              · exact absurd h.symm hxy
              · exact h
            have h1 : cmpB x.1 y.1 = .lt :=
              (List.pairwise_cons.mp hplt1).1 y hyt1
            have h2 : cmpB y.1 x.1 = .lt :=
              (List.pairwise_cons.mp hplt2).1 x hxt2
            obtain ⟨bs1, f1, hx⟩ := hstr1 x (by simp)
            obtain ⟨bs2, f2, hy⟩ := hstr2 y (by simp)
            rw [hx, hy] at h1 h2
            exact absurd h1 (fun hcon => cmpB_str_asymm hcon h2)

/-- Permutation-invariance of `bencode` on dictionaries with distinct
string keys: the emitted bytes do not depend on the insertion order of
the (key, value) pairs. -/
theorem bencode_dict_perm_invariant (l1 l2 : List (BValue × BValue))
    (hperm : l1.Perm l2)
    (hstr : ∀ p ∈ l1, ∃ bs f, p.1 = BValue.str bs f)
    (hpair : List.Pairwise
      (fun a b : BValue × BValue => bvKeyEq a.1 b.1 = false) l1) :
    bencode (.dict l1) = bencode (.dict l2) := by
  have hstr2 : ∀ p ∈ l2, ∃ bs f, p.1 = BValue.str bs f :=
    fun p hp => hstr p (hperm.symm.subset hp)
  have hsymm : Symmetric
      (fun a b : BValue × BValue => bvKeyEq a.1 b.1 = false) := by
    intro a b h
    rw [bvKeyEq_comm]
    exact h
  have hpair2 := (hperm.pairwise_iff (fun h => hsymm h)).mp hpair
  have hs1 := sortPairs_strict l1 hstr hpair
  have hs2 := sortPairs_strict l2 hstr2 hpair2
  have hsp : sortPairs l1 = sortPairs l2 := by
    refine strict_sorted_perm_eq (sortPairs l1) (sortPairs l2) ?_ hs1 hs2 ?_
    · intro p hp
      exact hstr p ((sortPairs_perm l1).mem_iff.mp hp)
    · exact ((sortPairs_perm l1).trans hperm).trans (sortPairs_perm l2).symm
  simp only [bencode]
  rw [hsp]

/-! ### JSON values and the duplicate-key merge hook

`Connection.do_action` (utorrent/connection.py lines 185-202) decodes the
response with `json.loads(res, object_pairs_hook = obj_hook)`.  The hook
receives the (key, value) pairs of one JSON object in encounter order and
folds them into a dict, extending the stored value in place when the key
repeats. -/

inductive J where
  | jnull : J
  | jbool : Bool → J
  | jint : Int → J
  | jstr : String → J
  | jarr : List J → J
  | jobj : List (String × J) → J
deriving Repr

/-- The elements `list.extend(v)` appends: a list contributes its
elements, a string its characters (as one-character strings), a dict its
keys; any other value is not iterable and raises `TypeError`. -/
def pyExtendElems : J → Except PyExc (List J)
  | .jarr l => .ok l
  | .jstr s => .ok (s.toList.map fun c => .jstr (String.mk [c]))
  | .jobj l => .ok (l.map fun p => .jstr p.1)
  | _ => .error .typeError

def hasKey (out : List (String × J)) (k : String) : Bool :=
  out.any fun p => p.1 == k

def lookupJKey : List (String × J) → String → Option J
  | [], _ => none
  | (k0, v0) :: r, k => if k0 = k then some v0 else lookupJKey r k

/-- `out[k].extend(v)` on the association list: find the entry, require
its value to have an `extend` attribute (a list), iterate `v`, and append
in place. -/
def extendInPlace : List (String × J) → String → J → Except PyExc (List (String × J))
  | [], _, _ => .error .keyError
  | (k0, v0) :: r, k, v =>
    if k0 = k then
      match v0 with
      | .jarr l =>
        match pyExtendElems v with
        | .error e => .error e
        | .ok elems => .ok ((k0, .jarr (l ++ elems)) :: r)
      | _ => .error .attributeError
    else
      match extendInPlace r k v with
      | .error e => .error e
      | .ok r2 => .ok ((k0, v0) :: r2)

def objHookLoop : List (String × J) → List (String × J) →
    Except PyExc (List (String × J))
  | out, [] => .ok out
  | out, (k, v) :: rest =>
    if hasKey out k then
      match extendInPlace out k v with
      | .error e => .error e
      | .ok out2 => objHookLoop out2 rest
    else objHookLoop (out ++ [(k, v)]) rest

/-- `obj_hook` from `Connection.do_action`: fold the JSON object pairs in
encounter order, merging duplicate keys by extending the first
occurrence's list. -/
def obj_hook (pairs : List (String × J)) : Except PyExc (List (String × J)) :=
  objHookLoop [] pairs

/-- Elements contributed to key `k` by a pair list (with list values). -/
def collectArr (pairs : List (String × J)) (k : String) : List J :=
  pairs.flatMap fun p =>
    if p.1 = k then (match p.2 with | .jarr l => l | _ => []) else []

theorem hasKey_iff_lookup (out : List (String × J)) (k : String) :
    hasKey out k = true ↔ (lookupJKey out k).isSome := by
  induction out with
  | nil => simp [hasKey, lookupJKey]
  | cons p r ih =>
      obtain ⟨k0, v0⟩ := p
      by_cases h : k0 = k
      · simp [hasKey, lookupJKey, h]
      · simp only [hasKey, List.any_cons, lookupJKey, if_neg h]
        simp only [hasKey] at ih
        simp [h, ih]

theorem extendInPlace_spec : ∀ (out : List (String × J)) (k0 : String) (a : List J),
    (∀ p ∈ out, ∃ l, p.2 = J.jarr l) → hasKey out k0 = true →
    ∃ out2, extendInPlace out k0 (.jarr a) = .ok out2 ∧
      (∀ p ∈ out2, ∃ l, p.2 = J.jarr l) ∧
      (∀ k, lookupJKey out2 k =
        if k = k0 then
          (match lookupJKey out k0 with
           | some (.jarr l) => some (.jarr (l ++ a))
           | _ => none)
        else lookupJKey out k) := by
  intro out
  induction out with
  | nil => intro k0 a _ hk; simp [hasKey] at hk
  | cons p r ih =>
      intro k0 a harr hk
      obtain ⟨kp, vp⟩ := p
      obtain ⟨l, hl⟩ := harr (kp, vp) (by simp)
      simp only at hl
      by_cases hkp : kp = k0
      · subst hkp
        refine ⟨(kp, .jarr (l ++ a)) :: r, ?_, ?_, ?_⟩
        · simp only [extendInPlace, if_pos rfl, hl]
          rfl
        · intro p hp
          rcases List.mem_cons.mp hp with h | h
          · exact ⟨l ++ a, by rw [h]⟩
          · exact harr p (by simp [h])
        · intro k
          by_cases hkk : k = kp
          · subst hkk
            simp [lookupJKey, hl]
          · have hkpk : ¬ kp = k := fun h => hkk h.symm
            simp [lookupJKey, hkpk, hkk]
      · have hkr : hasKey r k0 = true := by
          simp only [hasKey, List.any_cons] at hk
          rcases Bool.or_eq_true_iff.mp hk with h | h
          · exact absurd (by simpa using h) hkp
          · exact h
        obtain ⟨r2, hr2, harr2, hlook⟩ := ih k0 a (fun p hp => harr p (by simp [hp])) hkr
        refine ⟨(kp, vp) :: r2, ?_, ?_, ?_⟩
        · simp only [extendInPlace, if_neg hkp, hr2]
        · intro p hp
          rcases List.mem_cons.mp hp with h | h
          · exact ⟨l, by rw [h]; exact hl⟩
          · exact harr2 p h
        · intro k
          by_cases hkpk : kp = k
          · subst hkpk
            simp [lookupJKey, hkp]
          · simp only [lookupJKey, if_neg hkpk]
            rw [hlook k]
            by_cases hkk : k = k0
            · rw [if_pos hkk, if_pos hkk]
              simp [lookupJKey, hkp]
            · rw [if_neg hkk, if_neg hkk]

theorem lookupJKey_append_single (out : List (String × J)) (k0 k : String) (v : J) :
    lookupJKey (out ++ [(k0, v)]) k =
      match lookupJKey out k with
      | some w => some w
      | none => if k0 = k then some v else none := by
  induction out with
  | nil => simp [lookupJKey]
  | cons p r ih =>
      obtain ⟨kp, vp⟩ := p
      by_cases h : kp = k
      · simp [lookupJKey, h]
      · simp only [List.cons_append, lookupJKey, if_neg h]
        exact ih

theorem collectArr_cons (k0 k : String) (v0 : J) (rest : List (String × J)) :
    collectArr ((k0, v0) :: rest) k =
      (if k0 = k then (match v0 with | .jarr l => l | _ => []) else []) ++
        collectArr rest k := by
  simp [collectArr]

theorem lookup_all_arr {out : List (String × J)} {k : String} {w : J}
    (harr : ∀ p ∈ out, ∃ l, p.2 = J.jarr l) (h : lookupJKey out k = some w) :
    ∃ l, w = J.jarr l := by
  induction out with
  | nil => simp [lookupJKey] at h
  | cons p r ih =>
      obtain ⟨kp, vp⟩ := p
      by_cases hk : kp = k
      · simp only [lookupJKey, if_pos hk] at h
        obtain ⟨l, hl⟩ := harr (kp, vp) (by simp)
        have hvw : vp = w := Option.some_inj.mp h
        exact ⟨l, by rw [← hvw]; exact hl⟩
      · simp only [lookupJKey, if_neg hk] at h
        exact ih (fun p hp => harr p (by simp [hp])) h

theorem objHookLoop_spec : ∀ (rest out : List (String × J)),
    (∀ p ∈ out, ∃ l, p.2 = J.jarr l) → (∀ p ∈ rest, ∃ l, p.2 = J.jarr l) →
    ∃ out2, objHookLoop out rest = .ok out2 ∧
      (∀ p ∈ out2, ∃ l, p.2 = J.jarr l) ∧
      (∀ k, lookupJKey out2 k =
        match lookupJKey out k with
        | some (.jarr l) => some (.jarr (l ++ collectArr rest k))
        | some x => some x
        | none =>
          if rest.any (fun p => p.1 == k) then some (.jarr (collectArr rest k))
          else none) := by
  intro rest
  induction rest with
  | nil =>
      intro out harr _
      refine ⟨out, rfl, harr, ?_⟩
      intro k
      rcases hl : lookupJKey out k with _ | w
      · simp [collectArr]
      · obtain ⟨l, hw⟩ := lookup_all_arr harr hl
        subst hw
        simp [collectArr]
  | cons p0 rest ih =>
      intro out harr hrest
      obtain ⟨k0, v0⟩ := p0
      obtain ⟨a, ha⟩ := hrest (k0, v0) (by simp)
      simp only at ha
      subst ha
      by_cases hk : hasKey out k0 = true
      · obtain ⟨out1, hout1, harr1, hlook1⟩ := extendInPlace_spec out k0 a harr hk
        obtain ⟨out2, hout2, harr2, hlook2⟩ :=
          ih out1 harr1 (fun p hp => hrest p (by simp [hp]))
        refine ⟨out2, ?_, harr2, ?_⟩
        · simp only [objHookLoop, if_pos hk, hout1, hout2]
        · intro k
          rw [hlook2 k, hlook1 k]
          have hsome := (hasKey_iff_lookup out k0).mp hk
          rcases hl0 : lookupJKey out k0 with _ | w0
          · rw [hl0] at hsome; simp at hsome
          · obtain ⟨l0, hw0⟩ := lookup_all_arr harr hl0
            subst hw0
            by_cases hkk : k = k0
            · subst hkk
              simp [hl0, collectArr_cons, List.append_assoc]
            · rw [if_neg hkk]
              have hk0k : ¬ k0 = k := fun h => hkk h.symm
              have hbeq : (k0 == k) = false := beq_eq_false_iff_ne.mpr hk0k
              rcases hl : lookupJKey out k with _ | w
              · simp [hl, collectArr_cons, hk0k, List.any_cons, hbeq]
                rw [hbeq, Bool.false_or]
              · obtain ⟨lw, hww⟩ := lookup_all_arr harr hl
                subst hww
                simp [hl, collectArr_cons, hk0k]
      · have hnone : lookupJKey out k0 = none := by
          rcases hl : lookupJKey out k0 with _ | w
          · rfl
          · exfalso
            apply hk
            rw [hasKey_iff_lookup, hl]
            rfl
        have harr1 : ∀ p ∈ out ++ [(k0, J.jarr a)], ∃ l, p.2 = J.jarr l := by
          intro p hp
          rcases List.mem_append.mp hp with h | h
          · exact harr p h
          · exact ⟨a, by rw [show p = (k0, J.jarr a) by simpa using h]⟩
        obtain ⟨out2, hout2, harr2, hlook2⟩ :=
          ih (out ++ [(k0, .jarr a)]) harr1 (fun p hp => hrest p (by simp [hp]))
        refine ⟨out2, ?_, harr2, ?_⟩
        · simp only [objHookLoop, if_neg hk, hout2]
        · intro k
          rw [hlook2 k, lookupJKey_append_single]
          by_cases hkk : k = k0
          · subst hkk
            simp [hnone, collectArr_cons, List.any_cons]
          · have hk0k : ¬ k0 = k := fun h => hkk h.symm
            have hbeq : (k0 == k) = false := beq_eq_false_iff_ne.mpr hk0k
            rcases hl : lookupJKey out k with _ | w
            · simp [hl, collectArr_cons, hk0k, List.any_cons, hbeq]
              rw [hbeq, Bool.false_or]
            · obtain ⟨lw, hww⟩ := lookup_all_arr harr hl
              subst hww
              simp [hl, collectArr_cons, hk0k]

/-! ### The list cache synchronizer (uTorrent.py, `Desktop._fetch_torrent_list`)

The three per-kind caches are Python dicts from a scalar key (torrent
hash string, feed id, filter id) to the raw entity; they start as `None`
(class attribute) until a full snapshot populates them.  We model a dict
as an association list in insertion order, an absent cache as `none`,
and the JSON response as a structure holding exactly the fields the
method reads (`torrentm`/`torrentp` etc. are read unconditionally in the
delta branch; `torrents`/`rssfeeds`/`rssfilters` are guarded by `in`
checks in the snapshot branch; `torrentc` is the new cache id). -/

/-- Python `==` between the scalar JSON values that can be dict keys.
`True == 1` and `False == 0` hold in Python; different scalar types are
otherwise unequal. -/
def jScalarEq (a b : J) : Bool :=
  match a, b with
  | .jnull, .jnull => true
  | .jbool x, .jbool y => x == y
  | .jbool x, .jint n => (if x then (1 : Int) else 0) == n
  | .jint m, .jbool y => m == (if y then (1 : Int) else 0)
  | .jint m, .jint n => m == n
  | .jstr s, .jstr t => s == t
  | _, _ => false

def jHashable : J → Bool
  | .jnull => true
  | .jbool _ => true
  | .jint _ => true
  | .jstr _ => true
  | .jarr _ => false
  | .jobj _ => false

def lookupJCache : List (J × J) → J → Option J
  | [], _ => none
  | (k0, v0) :: r, k => if jScalarEq k0 k then some v0 else lookupJCache r k

def containsKeyJ (c : List (J × J)) (k : J) : Bool :=
  c.any fun p => jScalarEq p.1 k

/-- `del d[k]` removes the (unique) matching entry. -/
def eraseKeyJ : List (J × J) → J → List (J × J)
  | [], _ => []
  | (k0, v0) :: r, k => if jScalarEq k0 k then r else (k0, v0) :: eraseKeyJ r k

/-- `d[k] = v` keeps the position and original key object of an existing
matching entry, else appends. -/
def pyUpsertJ : List (J × J) → J → J → List (J × J)
  | [], k, v => [(k, v)]
  | (k0, v0) :: r, k, v =>
    if jScalarEq k0 k then (k0, v) :: r else (k0, v0) :: pyUpsertJ r k v

/-- `del self._cache[k]`: `TypeError` on `None` or an unhashable key,
`KeyError` when the key is absent. -/
def pyDelItem (c : Option (List (J × J))) (k : J) : Except PyExc (List (J × J)) :=
  match c with
  | none => .error .typeError
  | some c =>
    if jHashable k then
      if containsKeyJ c k then .ok (eraseKeyJ c k) else .error .keyError
    else .error .typeError

/-- `self._cache[k] = v`: `TypeError` on `None` or an unhashable key. -/
def pySetItem (c : Option (List (J × J))) (k v : J) :
    Except PyExc (List (J × J)) :=
  match c with
  | none => .error .typeError
  | some c => if jHashable k then .ok (pyUpsertJ c k v) else .error .typeError

/-- `t[0]` for a JSON value. -/
def pyIdx0 : J → Except PyExc J
  | .jarr [] => .error .indexError
  | .jarr (x :: _) => .ok x
  | .jstr s =>
    match s.toList with
    | [] => .error .indexError
    | c :: _ => .ok (.jstr (String.mk [c]))
  | _ => .error .typeError

/-- `for t in removed: del cache[t]` — mutation survives a raised
exception, so the partially updated cache is returned alongside it. -/
def delMany : Option (List (J × J)) → List J → Option PyExc × Option (List (J × J))
  | c, [] => (none, c)
  | c, k :: ks =>
    match pyDelItem c k with
    | .error e => (some e, c)
    | .ok c2 => delMany (some c2) ks

/-- `for t in added: cache[t[0]] = t`. -/
def addMany : Option (List (J × J)) → List J → Option PyExc × Option (List (J × J))
  | c, [] => (none, c)
  | c, t :: ts =>
    match pyIdx0 t with
    | .error e => (some e, c)
    | .ok k =>
      match pySetItem c k t with
      | .error e => (some e, c)
      | .ok c2 => addMany (some c2) ts

/-- One entity kind of the delta branch: every removed key is deleted
strictly before any added entity is upserted. -/
def applyKind (c : Option (List (J × J))) (removed added : List J) :
    Option PyExc × Option (List (J × J)) :=
  match delMany c removed with
  | (some e, c2) => (some e, c2)
  | (none, c2) => addMany c2 added

/-- `[(t[0], t) for t in ts]` — evaluated in full before the dict is
built, so an error here leaves the old cache in place. -/
def buildPairs : List J → Except PyExc (List (J × J))
  | [] => .ok []
  | t :: ts =>
    match pyIdx0 t with
    | .error e => .error e
    | .ok k =>
      match buildPairs ts with
      | .error e => .error e
      | .ok r => .ok ((k, t) :: r)

def dictOfPairs : List (J × J) → List (J × J) → Except PyExc (List (J × J))
  | acc, [] => .ok acc
  | acc, (k, v) :: r =>
    if jHashable k then dictOfPairs (pyUpsertJ acc k v) r else .error .typeError

/-- `{ t[0]: t for t in ts }`. -/
def buildCache (ts : List J) : Except PyExc (List (J × J)) :=
  match buildPairs ts with
  | .error e => .error e
  | .ok pairs => dictOfPairs [] pairs

/-- One snapshot kind: `if "torrents" in out: self._torrent_cache = {...}`;
an absent field leaves the old cache. -/
def fullKind (old : Option (List (J × J))) :
    Option (List J) → Except PyExc (Option (List (J × J)))
  | none => .ok old
  | some ts =>
    match buildCache ts with
    | .error e => .error e
    | .ok c => .ok (some c)

structure ListResponse where
  torrentm : List J
  torrentp : List J
  rssfeedm : List J
  rssfeedp : List J
  rssfilterm : List J
  rssfilterp : List J
  torrents : Option (List J)
  rssfeeds : Option (List J)
  rssfilters : Option (List J)
  torrentc : Int
deriving Repr

structure DState where
  listCacheId : Int
  torrentCache : Option (List (J × J))
  rssfeedCache : Option (List (J × J))
  rssfilterCache : Option (List (J × J))
deriving Repr

/-- `Desktop._fetch_torrent_list` (uTorrent.py lines 210-237) given the
decoded response `out` of the `list` action.  A raised exception aborts
the remaining steps but keeps every mutation made so far; on any path
that completes, the new cache id from `out` is adopted. -/
def fetch_torrent_list (st : DState) (out : ListResponse) :
    Option PyExc × DState :=
  if st.listCacheId ≠ 0 then
    match applyKind st.torrentCache out.torrentm out.torrentp with
    | (some e, c1) =>
      (some e, DState.mk st.listCacheId c1 st.rssfeedCache st.rssfilterCache)
    | (none, c1) =>
      match applyKind st.rssfeedCache out.rssfeedm out.rssfeedp with
      | (some e, c2) =>
        (some e, DState.mk st.listCacheId c1 c2 st.rssfilterCache)
      | (none, c2) =>
        match applyKind st.rssfilterCache out.rssfilterm out.rssfilterp with
        | (some e, c3) => (some e, DState.mk st.listCacheId c1 c2 c3)
        | (none, c3) => (none, DState.mk out.torrentc c1 c2 c3)
  else
    match fullKind st.torrentCache out.torrents with
    | .error e => (some e, st)
    | .ok c1 =>
      match fullKind st.rssfeedCache out.rssfeeds with
      | .error e =>
        (some e, DState.mk st.listCacheId c1 st.rssfeedCache st.rssfilterCache)
      | .ok c2 =>
        match fullKind st.rssfilterCache out.rssfilters with
        | .error e => (some e, DState.mk st.listCacheId c1 c2 st.rssfilterCache)
        | .ok c3 => (none, DState.mk out.torrentc c1 c2 c3)

/-! ### Facts about cache operations -/

inductive SKey where
  | snull : SKey
  | snum : Int → SKey
  | sstr : String → SKey
  | nokey : SKey
deriving DecidableEq

def sKey : J → SKey
  | .jnull => .snull
  | .jbool b => .snum (if b then 1 else 0)
  | .jint n => .snum n
  | .jstr s => .sstr s
  | .jarr _ => .nokey
  | .jobj _ => .nokey

theorem jScalarEq_iff (a b : J) :
    jScalarEq a b = true ↔ (sKey a = sKey b ∧ sKey a ≠ .nokey) := by
  cases a <;> cases b <;>
    simp [jScalarEq, sKey] <;>
    try (rename_i x y) <;>
    try (cases x <;> cases y <;> simp) <;>
    try (cases x <;> simp <;> omega) <;>
    try (rename_i n x; cases x <;> simp <;> omega)

theorem jScalarEq_refl {k : J} (h : jHashable k = true) :
    jScalarEq k k = true := by
  cases k <;> simp [jHashable] at h ⊢ <;> simp [jScalarEq]

theorem jScalarEq_symm (a b : J) : jScalarEq a b = jScalarEq b a := by
  by_cases h : jScalarEq a b = true
  · obtain ⟨h1, h2⟩ := (jScalarEq_iff a b).mp h
    rw [h, ((jScalarEq_iff b a).mpr ⟨h1.symm, h1 ▸ h2⟩)]
  · have h2 : ¬ jScalarEq b a = true := fun hc => by
      obtain ⟨h1, hn⟩ := (jScalarEq_iff b a).mp hc
      exact h ((jScalarEq_iff a b).mpr ⟨h1.symm, h1.symm ▸ hn⟩)
    simp only [Bool.not_eq_true] at h h2
    rw [h, h2]

theorem jScalarEq_trans {a b c : J} (h1 : jScalarEq a b = true)
    (h2 : jScalarEq b c = true) : jScalarEq a c = true := by
  obtain ⟨e1, n1⟩ := (jScalarEq_iff a b).mp h1
  obtain ⟨e2, _⟩ := (jScalarEq_iff b c).mp h2
  exact (jScalarEq_iff a c).mpr ⟨e1.trans e2, n1⟩

def cacheKeysDistinct (c : List (J × J)) : Prop :=
  List.Pairwise (fun p q : J × J => jScalarEq p.1 q.1 = false) c

theorem eraseKeyJ_sublist (k : J) : ∀ c : List (J × J),
    (eraseKeyJ c k).Sublist c := by
  intro c
  induction c with
  | nil => simp [eraseKeyJ]
  | cons p r ih =>
      obtain ⟨k0, v0⟩ := p
      by_cases h : jScalarEq k0 k = true
      · simp only [eraseKeyJ, if_pos h]
        exact (List.sublist_cons_self (k0, v0) r)
      · simp only [eraseKeyJ, if_neg h]
        exact List.Sublist.cons₂ (k0, v0) ih

theorem eraseKeyJ_distinct {c : List (J × J)} {k : J}
    (h : cacheKeysDistinct c) : cacheKeysDistinct (eraseKeyJ c k) :=
  h.sublist (eraseKeyJ_sublist k c)

theorem pyUpsertJ_mem : ∀ (c : List (J × J)) (k : J) (v : J) (q : J × J),
    q ∈ pyUpsertJ c k v → (∃ w, (q.1, w) ∈ c) ∨ q = (k, v) := by
  intro c k v
  induction c with
  | nil => intro q hq; simp [pyUpsertJ] at hq; exact Or.inr hq
  | cons p r ih =>
      obtain ⟨k0, v0⟩ := p
      intro q hq
      by_cases h : jScalarEq k0 k = true
      · simp only [pyUpsertJ, if_pos h] at hq
        rcases List.mem_cons.mp hq with hh | hh
        · exact Or.inl ⟨v0, by rw [hh]; simp⟩
        · exact Or.inl ⟨q.2, by simp [hh]⟩
      · simp only [pyUpsertJ, if_neg h] at hq
        rcases List.mem_cons.mp hq with hh | hh
        · exact Or.inl ⟨v0, by rw [hh]; simp⟩
        · rcases ih q hh with ⟨w, hw⟩ | hh2
          · exact Or.inl ⟨w, by simp [hw]⟩
          · exact Or.inr hh2

theorem pyUpsertJ_distinct : ∀ (c : List (J × J)) (k : J) (v : J),
    cacheKeysDistinct c → cacheKeysDistinct (pyUpsertJ c k v) := by
  intro c k v
  induction c with
  | nil => intro _; simp [pyUpsertJ, cacheKeysDistinct]
  | cons p r ih =>
      obtain ⟨k0, v0⟩ := p
      intro h
      obtain ⟨hhead, htail⟩ := List.pairwise_cons.mp h
      by_cases hk : jScalarEq k0 k = true
      · simp only [pyUpsertJ, if_pos hk]
        exact List.Pairwise.cons (fun q hq => hhead q hq) htail
      · simp only [pyUpsertJ, if_neg hk]
        refine List.Pairwise.cons ?_ (ih htail)
        intro q hq
        rcases pyUpsertJ_mem r k v q hq with ⟨w, hw⟩ | hh
        · exact hhead (q.1, w) hw
        · rw [hh]
          simpa using hk

theorem lookup_upsert_self : ∀ (c : List (J × J)) (k v : J),
    jHashable k = true → lookupJCache (pyUpsertJ c k v) k = some v := by
  intro c k v hk
  induction c with
  | nil => simp [pyUpsertJ, lookupJCache, jScalarEq_refl hk]
  | cons p r ih =>
      obtain ⟨k0, v0⟩ := p
      by_cases h : jScalarEq k0 k = true
      · simp [pyUpsertJ, lookupJCache, h]
      · simp [pyUpsertJ, lookupJCache, h, ih]

theorem lookup_upsert_other : ∀ (c : List (J × J)) (ku k v : J),
    jScalarEq ku k = false →
    lookupJCache (pyUpsertJ c ku v) k = lookupJCache c k := by
  intro c ku k v hne
  induction c with
  | nil => simp [pyUpsertJ, lookupJCache, hne]
  | cons p r ih =>
      obtain ⟨k0, v0⟩ := p
      by_cases h : jScalarEq k0 ku = true
      · have hk0 : jScalarEq k0 k = false := by
          by_cases hc : jScalarEq k0 k = true
          · exfalso
            have := jScalarEq_trans ((jScalarEq_symm k0 ku) ▸ h) hc
            rw [hne] at this
            exact absurd this (by simp)
          · simpa using hc
        simp [pyUpsertJ, lookupJCache, h, hk0]
      · simp [pyUpsertJ, lookupJCache, h, ih]

theorem pyDelItem_ok_shape {c : List (J × J)} {k : J} {c2 : List (J × J)}
    (h : pyDelItem (some c) k = .ok c2) : c2 = eraseKeyJ c k := by
  simp only [pyDelItem] at h
  by_cases h1 : jHashable k = true
  · rw [if_pos h1] at h
    by_cases h2 : containsKeyJ c k = true
    · rw [if_pos h2] at h
      exact (Except.ok.injEq _ _).mp h.symm
    · rw [if_neg h2] at h
      exact absurd h (by simp)
  · rw [if_neg h1] at h
    exact absurd h (by simp)

theorem pySetItem_ok_shape {c : List (J × J)} {k v : J} {c2 : List (J × J)}
    (h : pySetItem (some c) k v = .ok c2) :
    c2 = pyUpsertJ c k v ∧ jHashable k = true := by
  simp only [pySetItem] at h
  by_cases h1 : jHashable k = true
  · rw [if_pos h1] at h
    exact ⟨(Except.ok.injEq _ _).mp h.symm, h1⟩
  · rw [if_neg h1] at h
    exact absurd h (by simp)

theorem delMany_ok : ∀ (ks : List J) (c : List (J × J)) (copt : Option (List (J × J))),
    delMany (some c) ks = (none, copt) →
    ∃ c2, copt = some c2 ∧ (cacheKeysDistinct c → cacheKeysDistinct c2) := by
  intro ks
  induction ks with
  | nil =>
      intro c copt h
      simp only [delMany, Prod.mk.injEq] at h
      exact ⟨c, h.2.symm, fun hd => hd⟩
  | cons k ks ih =>
      intro c copt h
      simp only [delMany] at h
      rcases hdel : pyDelItem (some c) k with e | c2
      · rw [hdel] at h
        dsimp only at h
        simp at h
      · rw [hdel] at h
        dsimp only at h
        obtain ⟨c3, hc3, hd3⟩ := ih c2 copt h
        refine ⟨c3, hc3, fun hd => hd3 ?_⟩
        rw [pyDelItem_ok_shape hdel]
        exact eraseKeyJ_distinct hd

theorem addMany_ok : ∀ (ts : List J) (c : List (J × J)) (copt : Option (List (J × J))),
    addMany (some c) ts = (none, copt) →
    ∃ c2, copt = some c2 ∧ (cacheKeysDistinct c → cacheKeysDistinct c2) := by
  intro ts
  induction ts with
  | nil =>
      intro c copt h
      simp only [addMany, Prod.mk.injEq] at h
      exact ⟨c, h.2.symm, fun hd => hd⟩
  | cons t ts ih =>
      intro c copt h
      simp only [addMany] at h
      rcases hidx : pyIdx0 t with e | k
      · rw [hidx] at h; simp at h
      · rw [hidx] at h
        dsimp only at h
        rcases hset : pySetItem (some c) k t with e | c2
        · rw [hset] at h; simp at h
        · rw [hset] at h
          dsimp only at h
          obtain ⟨c3, hc3, hd3⟩ := ih c2 copt h
          refine ⟨c3, hc3, fun hd => hd3 ?_⟩
          obtain ⟨hsh, _⟩ := pySetItem_ok_shape hset
          rw [hsh]
          exact pyUpsertJ_distinct c k t hd

theorem addMany_ok_keys : ∀ (ts : List J) (c : List (J × J)) (copt : Option (List (J × J))),
    addMany (some c) ts = (none, copt) →
    ∀ t2 ∈ ts, ∃ k2, pyIdx0 t2 = .ok k2 ∧ jHashable k2 = true := by
  intro ts
  induction ts with
  | nil => intro c copt _ t2 ht2; simp at ht2
  | cons t ts ih =>
      intro c copt h t2 ht2
      simp only [addMany] at h
      rcases hidx : pyIdx0 t with e | k
      · rw [hidx] at h; simp at h
      · rw [hidx] at h
        dsimp only at h
        rcases hset : pySetItem (some c) k t with e | c2
        · rw [hset] at h; simp at h
        · rw [hset] at h
          dsimp only at h
          rcases List.mem_cons.mp ht2 with hh | hh
          · exact ⟨k, by rw [hh]; exact hidx, (pySetItem_ok_shape hset).2⟩
          · exact ih c2 copt h t2 hh

theorem addMany_nomatch : ∀ (ts : List J) (c c2 : List (J × J)) (k : J),
    addMany (some c) ts = (none, some c2) →
    (∀ t2 ∈ ts, ∀ k2, pyIdx0 t2 = .ok k2 → jScalarEq k2 k = false) →
    lookupJCache c2 k = lookupJCache c k := by
  intro ts
  induction ts with
  | nil =>
      intro c c2 k h _
      simp only [addMany, Prod.mk.injEq] at h
      rw [Option.some_inj.mp h.2]
  | cons t ts ih =>
      intro c c2 k h hnm
      simp only [addMany] at h
      rcases hidx : pyIdx0 t with e | kt
      · rw [hidx] at h; simp at h
      · rw [hidx] at h
        dsimp only at h
        rcases hset : pySetItem (some c) kt t with e | c1
        · rw [hset] at h; simp at h
        · rw [hset] at h
          dsimp only at h
          obtain ⟨hsh, _⟩ := pySetItem_ok_shape hset
          rw [ih c1 c2 k h (fun t2 ht2 => hnm t2 (by simp [ht2])), hsh]
          exact lookup_upsert_other c kt k t (hnm t (by simp) kt hidx)

theorem addMany_last : ∀ (ts : List J) (c c2 : List (J × J)) (t k : J),
    addMany (some c) ts = (none, some c2) →
    t ∈ ts → pyIdx0 t = .ok k →
    (∀ t2 ∈ ts, ∀ k2, pyIdx0 t2 = .ok k2 → jScalarEq k2 k = true → t2 = t) →
    lookupJCache c2 k = some t := by
  intro ts
  induction ts with
  | nil => intro c c2 t k _ ht; simp at ht
  | cons t0 ts ih =>
      intro c c2 t k h ht hidxt hlast
      have hkeys := addMany_ok_keys (t0 :: ts) c (some c2) h
      simp only [addMany] at h
      rcases hidx0 : pyIdx0 t0 with e | k0
      · rw [hidx0] at h; simp at h
      · rw [hidx0] at h
        dsimp only at h
        rcases hset : pySetItem (some c) k0 t0 with e | c1
        · rw [hset] at h; simp at h
        · rw [hset] at h
          dsimp only at h
          obtain ⟨hsh, hk0h⟩ := pySetItem_ok_shape hset
          by_cases hmatch : ∃ t2 ∈ ts, ∃ k2, pyIdx0 t2 = .ok k2 ∧ jScalarEq k2 k = true
          · obtain ⟨t2, ht2, k2, hik2, heq2⟩ := hmatch
            have ht2t : t2 = t := hlast t2 (by simp [ht2]) k2 hik2 heq2
            exact ih c1 c2 t k h (ht2t ▸ ht2) hidxt
              (fun t3 ht3 k3 hik3 heq3 => hlast t3 (by simp [ht3]) k3 hik3 heq3)
          · have hnm : ∀ t2 ∈ ts, ∀ k2, pyIdx0 t2 = .ok k2 → jScalarEq k2 k = false := by
              intro t2 ht2 k2 hik2
              by_cases hc : jScalarEq k2 k = true
              · exact absurd ⟨t2, ht2, k2, hik2, hc⟩ hmatch
              · simpa using hc
            have htt0 : t = t0 := by
              rcases List.mem_cons.mp ht with hh | hh
              · exact hh
              · exfalso
                obtain ⟨k2, hik2, hkh2⟩ := hkeys t (by simp [hh])
                rw [hidxt] at hik2
                have hk2k : k2 = k := Except.ok.inj hik2.symm
                have := hnm t hh k hidxt
                rw [jScalarEq_refl (hk2k ▸ hkh2)] at this
                exact absurd this (by simp)
            have hk0k : k0 = k := by
              rw [htt0] at hidxt
              rw [hidxt] at hidx0
              exact (Except.ok.inj hidx0).symm
            rw [addMany_nomatch ts c1 c2 k h hnm, hsh, hk0k, ← htt0]
            exact lookup_upsert_self c k t (hk0k ▸ hk0h)

theorem applyKind_ok (c : List (J × J)) (removed added : List J)
    (copt : Option (List (J × J)))
    (h : applyKind (some c) removed added = (none, copt)) :
    ∃ cd c2, delMany (some c) removed = (none, some cd) ∧
      addMany (some cd) added = (none, some c2) ∧ copt = some c2 := by
  unfold applyKind at h
  rcases hdel : delMany (some c) removed with ⟨od, cd0⟩
  rw [hdel] at h
  cases od with
  | some e => dsimp only at h; simp at h
  | none =>
      dsimp only at h
      obtain ⟨cd, hcd, _⟩ := delMany_ok removed c cd0 hdel
      subst hcd
      obtain ⟨c2, hc2, _⟩ := addMany_ok added cd copt h
      exact ⟨cd, c2, rfl, by rw [hc2] at h; exact h, hc2⟩

/-- C4: in `_fetch_torrent_list`, (a) on every successful fetch — delta
branch or full-snapshot branch — the cache identifier `out["torrentc"]`
returned by the response is adopted as the new local cache identifier;
(b) in the delta branch, every key of the removed array is deleted
strictly before any added entity is upserted, so an entity of the added
array replaces whatever the cache held under the same key: if `t` is the
unique entity of the added array whose key `t[0]` equals `k`, the final
torrent cache maps `k` to `t` (even when `k` was also listed as
removed). -/
theorem fetch_torrent_list_cid_and_delta_replace :
    (∀ (st : DState) (out : ListResponse) (st' : DState),
       fetch_torrent_list st out = (none, st') →
       st'.listCacheId = out.torrentc)
    ∧
    (∀ (st : DState) (out : ListResponse) (st' : DState)
       (c : List (J × J)) (t k : J),
       st.listCacheId ≠ 0 →
       st.torrentCache = some c →
       fetch_torrent_list st out = (none, st') →
       t ∈ out.torrentp → pyIdx0 t = .ok k →
       (∀ t2 ∈ out.torrentp, ∀ k2, pyIdx0 t2 = .ok k2 →
          jScalarEq k2 k = true → t2 = t) →
       ∃ c2, st'.torrentCache = some c2 ∧ lookupJCache c2 k = some t) := by
  constructor
  · intro st out st' h
    unfold fetch_torrent_list at h
    by_cases h0 : st.listCacheId ≠ 0
    · rw [if_pos h0] at h
      rcases h1 : applyKind st.torrentCache out.torrentm out.torrentp with ⟨o1, c1⟩
      rw [h1] at h
      cases o1 with
      | some e => dsimp only at h; simp at h
      | none =>
          dsimp only at h
          rcases h2 : applyKind st.rssfeedCache out.rssfeedm out.rssfeedp with ⟨o2, c2⟩
          rw [h2] at h
          cases o2 with
          | some e => dsimp only at h; simp at h
          | none =>
              dsimp only at h
              rcases h3 : applyKind st.rssfilterCache out.rssfilterm out.rssfilterp with ⟨o3, c3⟩
              rw [h3] at h
              cases o3 with
              | some e => dsimp only at h; simp at h
              | none =>
                  dsimp only at h
                  have h4 := congrArg Prod.snd h
                  dsimp only at h4
                  rw [← h4]
    · rw [if_neg h0] at h
      rcases h1 : fullKind st.torrentCache out.torrents with e1 | c1
      · rw [h1] at h; dsimp only at h; simp at h
      · rw [h1] at h
        dsimp only at h
        rcases h2 : fullKind st.rssfeedCache out.rssfeeds with e2 | c2
        · rw [h2] at h; dsimp only at h; simp at h
        · rw [h2] at h
          dsimp only at h
          rcases h3 : fullKind st.rssfilterCache out.rssfilters with e3 | c3
          · rw [h3] at h; dsimp only at h; simp at h
          · rw [h3] at h
            dsimp only at h
            have h4 := congrArg Prod.snd h
            dsimp only at h4
            rw [← h4]
  · intro st out st' c t k h0 hc h ht hik hlast
    unfold fetch_torrent_list at h
    rw [if_pos h0, hc] at h
    rcases h1 : applyKind (some c) out.torrentm out.torrentp with ⟨o1, c1⟩
    rw [h1] at h
    cases o1 with
    | some e => dsimp only at h; simp at h
    | none =>
        dsimp only at h
        rcases h2 : applyKind st.rssfeedCache out.rssfeedm out.rssfeedp with ⟨o2, c2v⟩
        rw [h2] at h
        cases o2 with
        | some e => dsimp only at h; simp at h
        | none =>
            dsimp only at h
            rcases h3 : applyKind st.rssfilterCache out.rssfilterm out.rssfilterp with ⟨o3, c3v⟩
            rw [h3] at h
            cases o3 with
            | some e => dsimp only at h; simp at h
            | none =>
                dsimp only at h
                have h4 := congrArg Prod.snd h
                dsimp only at h4
                obtain ⟨cd, c2, hdel, hadd, hc1⟩ := applyKind_ok c out.torrentm out.torrentp c1 h1
                refine ⟨c2, ?_, addMany_last out.torrentp cd c2 t k hadd ht hik hlast⟩
                rw [← h4]
                dsimp only
                exact hc1

theorem fetch_torrent_list_cid_and_delta_replace_witness :
    (DState.mk 7 (some [(J.jstr "h1", J.jarr [J.jstr "h1", J.jint 5])]) none
        none).listCacheId = (7 : Int) ∧
    (∃ c2, (DState.mk 7 (some [(J.jstr "h1", J.jarr [J.jstr "h1", J.jint 5])])
        none none).torrentCache = some c2 ∧
      lookupJCache c2 (J.jstr "h1") = some (J.jarr [J.jstr "h1", J.jint 5])) :=
  ⟨fetch_torrent_list_cid_and_delta_replace.1
      (DState.mk 1 (some [(J.jstr "h1", J.jstr "old")]) none none)
      (ListResponse.mk [J.jstr "h1"] [J.jarr [J.jstr "h1", J.jint 5]]
        [] [] [] [] none none none 7)
      (DState.mk 7 (some [(J.jstr "h1", J.jarr [J.jstr "h1", J.jint 5])]) none none)
      rfl,
   fetch_torrent_list_cid_and_delta_replace.2
      (DState.mk 1 (some [(J.jstr "h1", J.jstr "old")]) none none)
      (ListResponse.mk [J.jstr "h1"] [J.jarr [J.jstr "h1", J.jint 5]]
        [] [] [] [] none none none 7)
      (DState.mk 7 (some [(J.jstr "h1", J.jarr [J.jstr "h1", J.jint 5])]) none none)
      [(J.jstr "h1", J.jstr "old")] (J.jarr [J.jstr "h1", J.jint 5]) (J.jstr "h1")
      (by decide) rfl rfl (by simp) rfl
      (by intro t2 ht2 k2 hik heq; simpa using ht2)⟩

/-- C10: deleting a removed key during delta application is only defined
when the key is present in a previously populated cache.  (a) If the
torrent cache was never populated (`None`), a nonempty removed array
makes the fetch fail with a raw `TypeError` (`del None[k]`), the cache
identifier is not updated;  (b) if a removed key is absent from the
cache, the fetch fails with a raw `KeyError` and the cache is left
partially updated: keys deleted before the failing one stay deleted and
the cache identifier is not updated. -/
theorem fetch_torrent_list_delta_precondition :
    (∀ (st : DState) (out : ListResponse) (k : J) (ks : List J),
       st.listCacheId ≠ 0 →
       st.torrentCache = none →
       out.torrentm = k :: ks →
       fetch_torrent_list st out =
         (some .typeError,
          DState.mk st.listCacheId none st.rssfeedCache st.rssfilterCache))
    ∧
    (∀ (st : DState) (out : ListResponse) (c : List (J × J)) (k1 k2 : J),
       st.listCacheId ≠ 0 →
       st.torrentCache = some c →
       out.torrentm = [k1, k2] →
       jHashable k1 = true → containsKeyJ c k1 = true →
       jHashable k2 = true → containsKeyJ (eraseKeyJ c k1) k2 = false →
       fetch_torrent_list st out =
         (some .keyError,
          DState.mk st.listCacheId (some (eraseKeyJ c k1))
            st.rssfeedCache st.rssfilterCache)) := by
  constructor
  · intro st out k ks h0 hc hm
    unfold fetch_torrent_list
    rw [if_pos h0, hc, hm]
    have happ : applyKind none (k :: ks) out.torrentp = (some .typeError, none) := by
      unfold applyKind
      simp only [delMany, pyDelItem]
    rw [happ]
  · intro st out c k1 k2 h0 hc hm hh1 hcont1 hh2 hcont2
    unfold fetch_torrent_list
    rw [if_pos h0, hc, hm]
    have hp1 : pyDelItem (some c) k1 = .ok (eraseKeyJ c k1) := by
      unfold pyDelItem
      dsimp only
      rw [if_pos hh1, if_pos hcont1]
    have hp2 : pyDelItem (some (eraseKeyJ c k1)) k2 = .error .keyError := by
      unfold pyDelItem
      dsimp only
      rw [if_pos hh2, if_neg (by simp [hcont2])]
    have hd : delMany (some c) [k1, k2] =
        (some PyExc.keyError, some (eraseKeyJ c k1)) := by
      simp only [delMany]
      rw [hp1]
      dsimp only
      rw [hp2]
    have happ : applyKind (some c) [k1, k2] out.torrentp =
        (some PyExc.keyError, some (eraseKeyJ c k1)) := by
      unfold applyKind
      rw [hd]
    rw [happ]

theorem fetch_torrent_list_delta_precondition_witness :
    fetch_torrent_list (DState.mk 3 none none none)
        (ListResponse.mk [J.jstr "x"] [] [] [] [] [] none none none 9) =
      (some PyExc.typeError, DState.mk 3 none none none) ∧
    fetch_torrent_list (DState.mk 3 (some [(J.jstr "a", J.jint 1)]) none none)
        (ListResponse.mk [J.jstr "a", J.jstr "b"] [] [] [] [] [] none none none 9) =
      (some PyExc.keyError,
       DState.mk 3 (some (eraseKeyJ [(J.jstr "a", J.jint 1)] (J.jstr "a")))
         none none) :=
  ⟨fetch_torrent_list_delta_precondition.1
      (DState.mk 3 none none none)
      (ListResponse.mk [J.jstr "x"] [] [] [] [] [] none none none 9)
      (J.jstr "x") [] (by decide) rfl rfl,
   fetch_torrent_list_delta_precondition.2
      (DState.mk 3 (some [(J.jstr "a", J.jint 1)]) none none)
      (ListResponse.mk [J.jstr "a", J.jstr "b"] [] [] [] [] [] none none none 9)
      [(J.jstr "a", J.jint 1)] (J.jstr "a") (J.jstr "b")
      (by decide) rfl rfl (by decide) (by decide) (by decide) (by decide)⟩

/-! ### Claim theorems: bencode codec and dispatcher -/

/-- C1 (amended): the round trip `bdecode (bencode v) = v` holds for every
canonical value tree whose dictionary keys are text strings; it does NOT
hold for arbitrary canonical trees — a dictionary keyed by a non-UTF-8
byte string encodes fine but its decoding fails, because `bdecode`
materialises such a key as a `bytearray`, which is unhashable. -/
theorem bdecode_bencode_roundtrip (v : BValue) (h : canonical true v = true) :
    bdecode (bencode v) = .ok (some v) := by
  have h1 := (bdecodeF_bencode (2 * (bencode v).length + 2)).1 v [] h (by omega)
  rw [List.append_nil] at h1
  unfold bdecode
  rw [h1]
  rfl

theorem bdecode_bencode_roundtrip_witness :
    canonical true (BValue.int 5) = true ∧
    bdecode (bencode (BValue.int 5)) = .ok (some (BValue.int 5)) :=
  ⟨by decide, bdecode_bencode_roundtrip (BValue.int 5) (by decide)⟩

/-- C1 counterexample: the single-entry dictionary keyed by the byte
string `0xff` is canonical (no duplicate keys, no redundant numeric
encodings), encodes to `d1:\xffi1ee`, yet decoding that encoding raises
`TypeError` (the decoder rebuilds the non-UTF-8 key as a `bytearray`,
which cannot be used as a `dict` key). -/
theorem bdecode_bencode_roundtrip_cex :
    canonical false (BValue.dict [(BValue.str [255] false, BValue.int 1)]) = true ∧
    bencode (BValue.dict [(BValue.str [255] false, BValue.int 1)]) =
      [100, 49, 58, 255, 105, 49, 101, 101] ∧
    bdecode [100, 49, 58, 255, 105, 49, 101, 101] = .error PyExc.typeError := by
  refine ⟨by decide, ?_, rfl⟩
  simp +decide [bencode, bencodePairs, sortPairs, insertPair, pairLt, cmpB,
    cmpBytes, cmpBool, natDigits, natDigitsF, compare, compareOfLessAndEq,
    Ordering.then]

/-- C2: `bencode` emits mapping keys in sorted byte-lexicographic order:
the encoding of a dictionary is invariant under permutation of the
underlying association list (any key insertion order), and the mapping
`{"a": 1, "b": "x"}` encodes to exactly `d1:ai1e1:b1:xe` from either
insertion order. -/
theorem bencode_sorted_keys_canonical :
    (∀ (l1 l2 : List (BValue × BValue)), l1.Perm l2 →
       (∀ p ∈ l1, ∃ bs f, p.1 = BValue.str bs f) →
       List.Pairwise (fun a b : BValue × BValue => bvKeyEq a.1 b.1 = false) l1 →
       bencode (BValue.dict l1) = bencode (BValue.dict l2))
    ∧ bencode (BValue.dict [(BValue.str [97] true, BValue.int 1),
        (BValue.str [98] true, BValue.str [120] true)]) =
        [100, 49, 58, 97, 105, 49, 101, 49, 58, 98, 49, 58, 120, 101]
    ∧ bencode (BValue.dict [(BValue.str [98] true, BValue.str [120] true),
        (BValue.str [97] true, BValue.int 1)]) =
        [100, 49, 58, 97, 105, 49, 101, 49, 58, 98, 49, 58, 120, 101] := by
  refine ⟨bencode_dict_perm_invariant, ?_, ?_⟩ <;>
    simp +decide [bencode, bencodePairs, sortPairs, insertPair, pairLt, cmpB,
      cmpBytes, cmpBool, intDigits, natDigits, natDigitsF, compare,
      compareOfLessAndEq, Ordering.then]

theorem bencode_sorted_keys_canonical_witness :
    bencode (BValue.dict [(BValue.str [97] true, BValue.int 1),
        (BValue.str [98] true, BValue.str [120] true)]) =
      bencode (BValue.dict [(BValue.str [98] true, BValue.str [120] true),
        (BValue.str [97] true, BValue.int 1)]) :=
  bencode_sorted_keys_canonical.1
    [(BValue.str [97] true, BValue.int 1),
     (BValue.str [98] true, BValue.str [120] true)]
    [(BValue.str [98] true, BValue.str [120] true),
     (BValue.str [97] true, BValue.int 1)]
    (List.Perm.swap (BValue.str [98] true, BValue.str [120] true)
      (BValue.str [97] true, BValue.int 1) [])
    (by intro p hp
        rcases List.mem_cons.mp hp with h | h
        · exact ⟨[97], true, by rw [h]⟩
        · rcases List.mem_cons.mp h with h2 | h2
          · exact ⟨[98], true, by rw [h2]⟩
          · simp at h2)
    (by decide)

/-- C3 (amended): on malformed input `bdecode` raises raw built-in
exceptions, not a library-typed error: a proper prefix of any canonical
text-keyed encoding (stream ends mid-value, which subsumes a missing
terminator) raises `StopIteration`, and a non-numeric string length
prefix raises `ValueError`; the concrete truncated integer `i4` also
raises `StopIteration`. -/
theorem bdecode_malformed_raw_errors :
    (∀ (v : BValue) (p : List Nat), canonical true v = true →
       ProperPre p (bencode v) → bdecode p = .error PyExc.stopIteration)
    ∧ bdecode [49, 97, 58, 120] = .error PyExc.valueError
    ∧ bdecode [105, 52] = .error PyExc.stopIteration := by
  refine ⟨?_, rfl, rfl⟩
  intro v p hc hpre
  have h1 := (bdecodeF_fail (2 * p.length + 2)).1 v p hc hpre (by omega)
  unfold bdecode
  rw [h1]
  rfl

theorem bdecode_malformed_raw_errors_witness :
    bdecode [105, 53] = .error PyExc.stopIteration :=
  bdecode_malformed_raw_errors.1 (BValue.int 5) [105, 53] (by decide)
    ⟨[101], by decide, by simp +decide [bencode, intDigits, natDigits, natDigitsF]⟩

/-- C3 counterexample: the truncated stream `i1` makes `bdecode` raise
raw `StopIteration` and the non-numeric length prefix `1a:x` makes it
raise raw `ValueError` — there is no typed `MalformedEncoding` error
anywhere in the library (its only error type is `uTorrentError`, which
`bdecode` never raises). -/
theorem bdecode_malformed_raw_errors_cex :
    bdecode [105, 49] = .error PyExc.stopIteration ∧
    bdecode [49, 97, 58, 120] = .error PyExc.valueError :=
  ⟨rfl, rfl⟩

/-- C5: `obj_hook` in `Connection.do_action` merges duplicate JSON keys
by concatenating their list values in encounter order: for any pair list
with list values the resulting object maps each key to the concatenation
of all its occurrences' elements, and the concrete object with key `x`
bound to `[1,2]` and then `[3]` yields `x = [1,2,3]`. -/
theorem do_action_duplicate_key_merge :
    (∀ (pairs : List (String × J)),
       (∀ p ∈ pairs, ∃ l, p.2 = J.jarr l) →
       ∃ out, obj_hook pairs = .ok out ∧
         ∀ k, lookupJKey out k =
           if pairs.any (fun p => p.1 == k) then
             some (.jarr (collectArr pairs k))
           else none)
    ∧ obj_hook [("x", J.jarr [J.jint 1, J.jint 2]), ("x", J.jarr [J.jint 3])] =
        .ok [("x", J.jarr [J.jint 1, J.jint 2, J.jint 3])] := by
  constructor
  · intro pairs hp
    obtain ⟨out2, hok, _, hlook⟩ := objHookLoop_spec pairs [] (by simp) hp
    refine ⟨out2, hok, fun k => ?_⟩
    have h := hlook k
    simpa [lookupJKey] using h
  · rfl

theorem do_action_duplicate_key_merge_witness :
    ∃ out, obj_hook [("x", J.jarr [J.jint 1])] = .ok out ∧
      ∀ k, lookupJKey out k =
        if [("x", J.jarr [J.jint 1])].any (fun p => p.1 == k) then
          some (.jarr (collectArr [("x", J.jarr [J.jint 1])] k))
        else none :=
  do_action_duplicate_key_merge.1 [("x", J.jarr [J.jint 1])]
    (by intro p hp
        rcases List.mem_cons.mp hp with h | h
        · exact ⟨[J.jint 1], by rw [h]⟩
        · simp at h)

/-! ### `Connection._make_request` (connection.py lines 52-111)

The transport loop is modelled against a *script*: the outcome of each
successive `self._connection.request(...)` / `getresponse()` attempt,
either a response (status, reason, body, cookies set by the server) or a
raised exception.  The loop consumes one script entry per attempt; the
number of consumed entries is the number of attempts made.  The class
attribute `Connection._cookies` is a single `CookieJar` shared by every
instance; it is modelled as the `jar` field threaded through `MState`
(so two instances share it by passing one instance's output jar as the
other's input jar).  `self._request`'s headers are per-instance
(`reqHeaders`).  `closed` is the state of the HTTP connection
(`request` reopens it, `close()` closes it). -/

inductive UtDialect where
  | desktop
  | falcon
  | linuxServer
deriving DecidableEq, Repr

inductive Attempt where
  | resp (status : Nat) (reason body : String) (setCookies : List (String × String))
  | excBadStatusLine (id : Nat)
  | excCannotSend (id : Nat)
  | excGai (strerror : String)
  | excTimeout
  | excSock (eno : Int) (strerror : String) (id : Nat)
deriving Repr

structure MState where
  jar : List (String × String)
  reqHeaders : List (String × String)
  attempts : Nat
  closed : Bool
deriving Repr, DecidableEq

inductive MRes where
  | ok (status : Nat) (body : String)
  | retNone
  | err (e : PyExc)
  | scriptEnd
deriving Repr, DecidableEq

/-- `str.strip()` whitespace (ASCII subset). -/
def isPySpace (c : Char) : Bool :=
  c == ' ' || c == '\t' || c == '\n' || c == '\r' ||
    c.toNat == 11 || c.toNat == 12

def pyStrip (s : String) : String :=
  String.mk (((s.toList.dropWhile isPySpace).reverse.dropWhile isPySpace).reverse)

/-- UTF-8 encoding of one code point. -/
def utf8Enc (c : Nat) : List Nat :=
  if c < 128 then [c]
  else if c < 2048 then [192 + c / 64, 128 + c % 64]
  else if c < 65536 then [224 + c / 4096, 128 + c / 64 % 64, 128 + c % 64]
  else [240 + c / 262144, 128 + c / 4096 % 64, 128 + c / 64 % 64, 128 + c % 64]

def hexDigitU (n : Nat) : Char :=
  if n < 10 then Char.ofNat (48 + n) else Char.ofNat (55 + n)

/-- One byte of `urllib.parse.quote(s, "")`: unreserved characters pass,
everything else is percent-encoded (uppercase hex). -/
def quoteByte (b : Nat) : List Char :=
  if (65 ≤ b && b ≤ 90) || (97 ≤ b && b ≤ 122) || (48 ≤ b && b ≤ 57) ||
      b == 95 || b == 46 || b == 126 || b == 45 then
    [Char.ofNat b]
  else
    ['%', hexDigitU (b / 16), hexDigitU (b % 16)]

/-- `utorrent._url_quote` = `urllib.parse.quote(string, "")`. -/
def pyQuote (s : String) : String :=
  String.mk ((s.toList.flatMap fun c => utf8Enc c.toNat).flatMap quoteByte)

/-- `CookieJar` keeps one cookie per (name); a newly extracted cookie
replaces the one with the same name. -/
def upsertCookie : List (String × String) → String × String → List (String × String)
  | [], c => [c]
  | c0 :: r, c => if c0.1 == c.1 then c :: r else c0 :: upsertCookie r c

/-- `self._cookies.extract_cookies(resp, self._request)`. -/
def extractCookies (jar : List (String × String))
    (sc : List (String × String)) : List (String × String) :=
  sc.foldl upsertCookie jar

/-- `"; ".join("{}={}".format(_url_quote(c.name), _url_quote(c.value)) for c in jar)`. -/
def renderJar (jar : List (String × String)) : String :=
  String.intercalate "; " (jar.map fun c => pyQuote c.1 ++ "=" ++ pyQuote c.2)

/-- `Request.add_header` replaces an existing header with the same name. -/
def setHeader : List (String × String) → String → String → List (String × String)
  | [], k, v => [(k, v)]
  | h :: r, k, v => if h.1 == k then (k, v) :: r else h :: setHeader r k v

/-- `Connection._retry_max`. -/
def retry_max : Nat := 3

/-- Linux `errno` constants used by the handler. -/
def ECONNREFUSED : Int := 111

def ECONNRESET : Int := 104

def EHOSTUNREACH : Int := 113

/-- connection.py line 101 reads `... or errno == errno.EHOSTUNREACH`:
the left operand is the `errno` *module* object, not `e.errno`, and a
module never compares equal to an `int`, so this disjunct is constantly
false. -/
def errnoModuleEqEHOSTUNREACH : Bool := false

def closeConn (st : MState) : MState :=
  MState.mk st.jar st.reqHeaders st.attempts true

/-- The `while retries < max_retries or utserver_retry` loop of
`_make_request`.  Arguments after the script mirror the loop state:
`retries`, `utserver_retry`, `last_e`. -/
def mrLoop (ut : Option UtDialect) (loc : String) (maxR : Nat) :
    List Attempt → Nat → Bool → Option PyExc → MState → MRes × MState
  | script, retries, utRetry, lastE, st =>
    if retries < maxR || utRetry then
      match script with
      | [] => (.scriptEnd, st)
      | a :: rest =>
        let st1 := MState.mk st.jar st.reqHeaders (st.attempts + 1) false
        match a with
        | .resp status reason body sc =>
          if status == 400 then
            if (ut.isNone || ut == some .linuxServer) && !utRetry then
              mrLoop ut loc maxR rest retries true
                (some (.uTorrentError (pyStrip body))) st1
            else (.err (.uTorrentError (pyStrip body)), closeConn st1)
          else if status == 404 || status == 401 then
            (.err (.uTorrentError ("Request " ++ loc ++ ": " ++ reason)), closeConn st1)
          else if status != 200 && status != 206 then
            (.err (.uTorrentError (reason ++ ": " ++ toString status)), closeConn st1)
          else
            let jar2 := extractCookies st1.jar sc
            (.ok status body,
             MState.mk jar2
               (if 0 < jar2.length then
                  setHeader st1.reqHeaders "Cookie" (renderJar jar2)
                else st1.reqHeaders)
               st1.attempts false)
        | .excBadStatusLine i =>
          mrLoop ut loc maxR rest (retries + 1) utRetry
            (some (.badStatusLine i)) (closeConn st1)
        | .excCannotSend i =>
          mrLoop ut loc maxR rest (retries + 1) utRetry
            (some (.cannotSendRequest i)) (closeConn st1)
        | .excGai s => (.err (.uTorrentError s), closeConn st1)
        | .excTimeout =>
          mrLoop ut loc maxR rest (retries + 1) utRetry
            (some (.uTorrentError ("Timeout after " ++ toString maxR ++ " tries")))
            (closeConn st1)
        | .excSock eno s i =>
          if eno == 10053 || eno == 10054 then
            mrLoop ut loc maxR rest (retries + 1) utRetry
              (some (.socketError eno s i)) (closeConn st1)
          else if eno == ECONNREFUSED || eno == ECONNRESET ||
              errnoModuleEqEHOSTUNREACH then
            (.err (.uTorrentError s), closeConn st1)
          else (.err (.socketError eno s i), closeConn st1)
    else
      match lastE with
      | some e => (.err e, closeConn st)
      | none => (.retNone, st)

/-- `Connection._make_request(loc, headers, data, retry)`. -/
def make_request (ut : Option UtDialect) (retry : Bool) (loc : String)
    (script : List Attempt) (st : MState) : MRes × MState :=
  mrLoop ut loc (if retry then retry_max else 1) script 0 false none st

/-- C6: with retry enabled (`_retry_max = 3`), `_make_request` makes at
most 3 attempts for bad-status-line failures: three consecutive such
failures raise the third failure's exception with no fourth attempt
(whatever the script holds beyond them), and two failures followed by a
success return the success result after exactly 3 attempts. -/
theorem mrLoop_stop (ut : Option UtDialect) (loc : String) (maxR retries : Nat)
    (script : List Attempt) (e : PyExc) (st : MState) (h : maxR ≤ retries) :
    mrLoop ut loc maxR script retries false (some e) st = (.err e, closeConn st) := by
  unfold mrLoop
  rw [if_neg]
  simp
  omega

theorem make_request_retry_budget :
    (∀ (ut : Option UtDialect) (loc : String) (i1 i2 i3 : Nat)
       (rest : List Attempt) (st : MState),
       make_request ut true loc
         (.excBadStatusLine i1 :: .excBadStatusLine i2 ::
          .excBadStatusLine i3 :: rest) st =
       (.err (.badStatusLine i3),
        MState.mk st.jar st.reqHeaders (st.attempts + 3) true))
    ∧
    (∀ (ut : Option UtDialect) (loc : String) (i1 i2 : Nat) (r b : String)
       (hdrs : List (String × String)) (att : Nat) (cl : Bool),
       make_request ut true loc
         [.excBadStatusLine i1, .excBadStatusLine i2, .resp 200 r b []]
         (MState.mk [] hdrs att cl) =
       (.ok 200 b, MState.mk [] hdrs (att + 3) false)) := by
  constructor <;> intros <;>
    simp +decide [make_request, mrLoop, retry_max, closeConn, extractCookies] <;>
    rw [mrLoop_stop _ _ _ _ _ _ _ (by omega)] <;>
    simp [closeConn] <;> omega

/-- C7: an HTTP 400 on the first request of a connection with no
attached uTorrent instance (`self._utorrent is None`, as on a freshly
opened connection) triggers exactly one retry of the request; a second
400 is fatal — `uTorrentError` carrying the second response's stripped
body is raised after exactly 2 attempts, no matter what the script still
holds — while a success on the retry is returned normally. -/
theorem make_request_400_retry_once :
    (∀ (loc r1 b1 r2 b2 : String) (sc1 sc2 : List (String × String))
       (rest : List Attempt) (st : MState),
       make_request none true loc
         (.resp 400 r1 b1 sc1 :: .resp 400 r2 b2 sc2 :: rest) st =
       (.err (.uTorrentError (pyStrip b2)),
        MState.mk st.jar st.reqHeaders (st.attempts + 2) true))
    ∧
    (∀ (loc r1 b1 r2 b2 : String) (sc1 : List (String × String))
       (hdrs : List (String × String)) (att : Nat) (cl : Bool),
       make_request none true loc
         [.resp 400 r1 b1 sc1, .resp 200 r2 b2 []] (MState.mk [] hdrs att cl) =
       (.ok 200 b2, MState.mk [] hdrs (att + 2) false)) := by
  constructor <;> intros <;>
    simp +decide [make_request, mrLoop, retry_max, closeConn, extractCookies]

/-- C8: connection-refused (errno 111), connection-reset (errno 104) and
name-resolution failures abort after exactly one attempt with the typed
`uTorrentError` carrying the condition's description, connection closed;
but host-unreachable (errno 113) — which the specification claims gets
the same typed treatment — escapes as the raw `socket.error`, because
line 101's third disjunct compares the `errno` module itself (not
`e.errno`) against `errno.EHOSTUNREACH` and is therefore never true. -/
theorem make_request_fatal_network_faults :
    (∀ (ut : Option UtDialect) (loc s : String) (i : Nat)
       (rest : List Attempt) (st : MState),
       make_request ut true loc (.excSock ECONNREFUSED s i :: rest) st =
       (.err (.uTorrentError s),
        MState.mk st.jar st.reqHeaders (st.attempts + 1) true))
    ∧
    (∀ (ut : Option UtDialect) (loc s : String) (i : Nat)
       (rest : List Attempt) (st : MState),
       make_request ut true loc (.excSock ECONNRESET s i :: rest) st =
       (.err (.uTorrentError s),
        MState.mk st.jar st.reqHeaders (st.attempts + 1) true))
    ∧
    (∀ (ut : Option UtDialect) (loc s : String)
       (rest : List Attempt) (st : MState),
       make_request ut true loc (.excGai s :: rest) st =
       (.err (.uTorrentError s),
        MState.mk st.jar st.reqHeaders (st.attempts + 1) true))
    ∧
    (∀ (ut : Option UtDialect) (loc s : String) (i : Nat)
       (rest : List Attempt) (st : MState),
       make_request ut true loc (.excSock EHOSTUNREACH s i :: rest) st =
       (.err (.socketError EHOSTUNREACH s i),
        MState.mk st.jar st.reqHeaders (st.attempts + 1) true)) := by
  refine ⟨?_, ?_, ?_, ?_⟩ <;> intros <;>
    simp +decide [make_request, mrLoop, retry_max, closeConn, ECONNREFUSED,
      ECONNRESET, EHOSTUNREACH, errnoModuleEqEHOSTUNREACH]

/-- C9 (amended): `Connection._cookies` is a single class-attribute
`CookieJar` shared by every instance.  A successful request on any
instance merges the response's cookies into that shared jar and, when
the jar is nonempty, rewrites the instance's `Cookie` request header
from the *entire shared jar* — including cookies extracted from other
instances' responses.  Sessions are therefore not isolated. -/
theorem connection_cookie_jar_shared :
    ∀ (ut : Option UtDialect) (loc r b : String)
      (sc : List (String × String)) (st : MState),
      make_request ut true loc [.resp 200 r b sc] st =
      (.ok 200 b,
       MState.mk (extractCookies st.jar sc)
         (if 0 < (extractCookies st.jar sc).length then
            setHeader st.reqHeaders "Cookie" (renderJar (extractCookies st.jar sc))
          else st.reqHeaders)
         (st.attempts + 1) false) := by
  intros
  simp +decide [make_request, mrLoop, retry_max]

/-- C9 counterexample: two independently constructed instances.  The
first instance's response sets cookie `sid=abc`; the second instance's
own response sets no cookie at all, yet — because the jar is the shared
class attribute — the second instance's request headers end up carrying
`Cookie: sid=abc` from the first instance's session. -/
theorem connection_cookie_jar_shared_cex :
    make_request none true "gui/" [.resp 200 "OK" "b1" [("sid", "abc")]]
      (MState.mk [] [] 0 false) =
      (.ok 200 "b1",
       MState.mk [("sid", "abc")] [("Cookie", "sid=abc")] 1 false) ∧
    make_request none true "gui/" [.resp 200 "OK" "b2" []]
      (MState.mk [("sid", "abc")] [] 0 false) =
      (.ok 200 "b2",
       MState.mk [("sid", "abc")] [("Cookie", "sid=abc")] 1 false) :=
  ⟨by decide, by decide⟩
